import Mathlib

/-!
Shallow embedding of the `ota_server` firmware crypto and catalog core
(`server/core/crypto.py` and `server/core/firmware_manager.py`), together
with theorems settling the specification claims about it.

Bytes are modelled as `Nat` (values < 256 in the source), byte strings as
`List Nat`.  External library primitives that the Python code calls
(the AES block cipher, MD5, `os.urandom`) are taken as explicit function
parameters; everything written in the repository itself is translated
directly.
-/

set_option maxRecDepth 40000

namespace OTA

/-! ## Python string/byte primitives used by the source -/

/-- Model of `str.encode('utf-8')`: the UTF-8 bytes of a string. -/
def utf8Bytes (s : String) : List Nat :=
  (s.toList.map String.utf8EncodeChar).flatten.map (fun b => b.toNat)

/-- Value of a hexadecimal digit character, if it is one. -/
def hexDigitVal? (c : Char) : Option Nat :=
  if '0' ≤ c ∧ c ≤ '9' then some (c.toNat - '0'.toNat)
  else if 'a' ≤ c ∧ c ≤ 'f' then some (c.toNat - 'a'.toNat + 10)
  else if 'A' ≤ c ∧ c ≤ 'F' then some (c.toNat - 'A'.toNat + 10)
  else none

/-- Decode pairs of hex digits into bytes; `none` on a stray digit or a
non-hex character. -/
def hexPairs? : List Char → Option (List Nat)
  | [] => some []
  | [_] => none
  | c₁ :: c₂ :: rest => do
      let h ← hexDigitVal? c₁
      let l ← hexDigitVal? c₂
      let tail ← hexPairs? rest
      pure ((h * 16 + l) :: tail)

/-- Model of Python `bytes.fromhex`: spaces between bytes are skipped,
any other non-hex character or an odd digit count fails.  (Python only
allows spaces between two-digit pairs; filtering them first is equivalent
for every use below, which only looks at whether 16 bytes come out.) -/
def pyFromHex (s : String) : Option (List Nat) :=
  hexPairs? (s.toList.filter (fun c => c ≠ ' '))

/-- Lowercase hex digit for a value < 16. -/
def hexChar (n : Nat) : Char :=
  if n < 10 then Char.ofNat ('0'.toNat + n) else Char.ofNat ('a'.toNat + n - 10)

/-- Model of Python `bytes.hex()`: lowercase, two digits per byte. -/
def bytesToHex (bs : List Nat) : String :=
  String.mk ((bs.map (fun b => [hexChar (b / 16 % 16), hexChar (b % 16)])).flatten)

/-- Model of Python `int(str)` on a plain decimal literal: an optional
sign followed by one or more ASCII digits.  (Python additionally accepts
surrounding whitespace and `_` separators; no claim below depends on
those inputs.) -/
def pyIntDigits? (cs : List Char) : Option Int :=
  if cs = [] ∨ ¬ cs.all Char.isDigit then none
  else some (Int.ofNat (cs.foldl (fun acc c => acc * 10 + (c.toNat - '0'.toNat)) 0))

/-- See `pyIntDigits?`: an optional sign followed by the digits. -/
def pyInt? (s : String) : Option Int :=
  match s.toList with
  | [] => none
  | c :: rest =>
      if c = '-' then (pyIntDigits? rest).map (fun n => -n)
      else if c = '+' then pyIntDigits? rest
      else pyIntDigits? (c :: rest)

/-- Model of Python `str.lstrip('v')`: drop leading lowercase `v`s. -/
def stripV (s : String) : String :=
  String.mk (s.toList.dropWhile (fun c => c = 'v'))

/-- Accumulator loop for `splitDots`. -/
def splitDotsAux : List Char → List Char → List String
  | acc, [] => [String.mk acc.reverse]
  | acc, c :: rest =>
      if c = '.' then String.mk acc.reverse :: splitDotsAux [] rest
      else splitDotsAux (c :: acc) rest

/-- Model of Python `str.split('.')` (note `"".split('.') == ['']`). -/
def splitDots (s : String) : List String :=
  splitDotsAux [] s.toList

/-! ## Crc32Stm32 (`CryptoManager._calculate_crc32_stm32`) -/

/-- The 256-entry lookup table hard-coded in `_calculate_crc32_stm32`. -/
def crc32_table : List Nat := [
  0x00000000, 0x77073096, 0xee0e612c, 0x990951ba, 0x076dc419, 0x706af48f, 0xe963a535, 0x9e6495a3,
  0x0edb8832, 0x79dcb8a4, 0xe0d5e91e, 0x97d2d988, 0x09b64c2b, 0x7eb17cbd, 0xe7b82d07, 0x90bf1d91,
  0x1db71064, 0x6ab020f2, 0xf3b97148, 0x84be41de, 0x1adad47d, 0x6ddde4eb, 0xf4d4b551, 0x83d385c7,
  0x136c9856, 0x646ba8c0, 0xfd62f97a, 0x8a65c9ec, 0x14015c4f, 0x63066cd9, 0xfa0f3d63, 0x8d080df5,
  0x3b6e20c8, 0x4c69105e, 0xd56041e4, 0xa2677172, 0x3c03e4d1, 0x4b04d447, 0xd20d85fd, 0xa50ab56b,
  0x35b5a8fa, 0x42b2986c, 0xdbbbc9d6, 0xacbcf940, 0x32d86ce3, 0x45df5c75, 0xdcd60dcf, 0xabd13d59,
  0x26d930ac, 0x51de003a, 0xc8d75180, 0xbfd06116, 0x21b4f4b5, 0x56b3c423, 0xcfba9599, 0xb8bda50f,
  0x2802b89e, 0x5f058808, 0xc60cd9b2, 0xb10be924, 0x2f6f7c87, 0x58684c11, 0xc1611dab, 0xb6662d3d,
  0x76dc4190, 0x01db7106, 0x98d220bc, 0xefd5102a, 0x71b18589, 0x06b6b51f, 0x9fbfe4a5, 0xe8b8d433,
  0x7807c9a2, 0x0f00f934, 0x9609a88e, 0xe10e9818, 0x7f6a0dbb, 0x086d3d2d, 0x91646c97, 0xe6635c01,
  0x6b6b51f4, 0x1c6c6162, 0x856530d8, 0xf262004e, 0x6c0695ed, 0x1b01a57b, 0x8208f4c1, 0xf50fc457,
  0x65b0d9c6, 0x12b7e950, 0x8bbeb8ea, 0xfcb9887c, 0x62dd1ddf, 0x15da2d49, 0x8cd37cf3, 0xfbd44c65,
  0x4db26158, 0x3ab551ce, 0xa3bc0074, 0xd4bb30e2, 0x4adfa541, 0x3dd895d7, 0xa4d1c46d, 0xd3d6f4fb,
  0x4369e96a, 0x346ed9fc, 0xad678846, 0xda60b8d0, 0x44042d73, 0x33031de5, 0xaa0a4c5f, 0xdd0d7cc9,
  0x5005713c, 0x270241aa, 0xbe0b1010, 0xc90c2086, 0x5768b525, 0x206f85b3, 0xb966d409, 0xce61e49f,
  0x5edef90e, 0x29d9c998, 0xb0d09822, 0xc7d7a8b4, 0x59b33d17, 0x2eb40d81, 0xb7bd5c3b, 0xc0ba6cad,
  0xedb88320, 0x9abfb3b6, 0x03b6e20c, 0x74b1d29a, 0xead54739, 0x9dd277af, 0x04db2615, 0x73dc1683,
  0xe3630b12, 0x94643b84, 0x0d6d6a3e, 0x7a6a5aa8, 0xe40ecf0b, 0x9309ff9d, 0x0a00ae27, 0x7d079eb1,
  0xf00f9344, 0x8708a3d2, 0x1e01f268, 0x6906c2fe, 0xf762575d, 0x806567cb, 0x196c3671, 0x6e6b06e7,
  0xfed41b76, 0x89d32be0, 0x10da7a5a, 0x67dd4acc, 0xf9b9df6f, 0x8ebeeff9, 0x17b7be43, 0x60b08ed5,
  0xd6d6a3e8, 0xa1d1937e, 0x38d8c2c4, 0x4fdff252, 0xd1bb67f1, 0xa6bc5767, 0x3fb506dd, 0x48b2364b,
  0xd80d2bda, 0xaf0a1b4c, 0x36034af6, 0x41047a60, 0xdf60efc3, 0xa867df55, 0x316e8eef, 0x4669be79,
  0xcb61b38c, 0xbc66831a, 0x256fd2a0, 0x5268e236, 0xcc0c7795, 0xbb0b4703, 0x220216b9, 0x5505262f,
  0xc5ba3bbe, 0xb2bd0b28, 0x2bb45a92, 0x5cb36a04, 0xc2d7ffa7, 0xb5d0cf31, 0x2cd99e8b, 0x5bdeae1d,
  0x9b64c2b0, 0xec63f226, 0x756aa39c, 0x026d930a, 0x9c0906a9, 0xeb0e363f, 0x72076785, 0x05005713,
  0x95bf4a82, 0xe2b87a14, 0x7bb12bae, 0x0cb61b38, 0x92d28e9b, 0xe5d5be0d, 0x7cdcefb7, 0x0bdbdf21,
  0x86d3d2d4, 0xf1d4e242, 0x68ddb3f8, 0x1fda836e, 0x81be16cd, 0xf6b9265b, 0x6fb077e1, 0x18b74777,
  0x88085ae6, 0xff0f6a70, 0x66063bca, 0x11010b5c, 0x8f659eff, 0xf862ae69, 0x616bffd3, 0x166ccf45,
  0xa00ae278, 0xd70dd2ee, 0x4e048354, 0x3903b3c2, 0xa7672661, 0xd06016f7, 0x4969474d, 0x3e6e77db,
  0xaed16a4a, 0xd9d65adc, 0x40df0b66, 0x37d83bf0, 0xa9bcae53, 0xdebb9ec5, 0x47b2cf7f, 0x30b5ffe9,
  0xbdbdf21c, 0xcabac28a, 0x53b39330, 0x24b4a3a6, 0xbad03605, 0xcdd70693, 0x54de5729, 0x23d967bf,
  0xb3667a2e, 0xc4614ab8, 0x5d681b02, 0x2a6f2b94, 0xb40bbe37, 0xc30c8ea1, 0x5a05df1b, 0x2d02ef8d]

/-- One byte step of the table-driven loop:
`crc = crc32_table[(crc ^ byte) & 0xFF] ^ (crc >> 8)`. -/
def crcByteStep (crc byte : Nat) : Nat :=
  crc32_table.getD ((crc ^^^ byte) % 256) 0 ^^^ (crc >>> 8)

/-- `CryptoManager._calculate_crc32_stm32`: initial register `0xFFFFFFFF`,
one table step per byte, final bit inversion (`(~crc) & 0xFFFFFFFF`,
which for a 32-bit register is XOR with `0xFFFFFFFF`). -/
def calculateCrc32Stm32 (data : List Nat) : Nat :=
  (data.foldl crcByteStep 0xFFFFFFFF) ^^^ 0xFFFFFFFF

/-- One bit of the reflected CRC-32 feedback with polynomial `0xEDB88320`. -/
def crcBitStep (x : Nat) : Nat :=
  if x % 2 = 1 then (x / 2) ^^^ 0xEDB88320 else x / 2

/-- Eight feedback bits: the table generator for one byte index. -/
def crcBitStep8 (x : Nat) : Nat :=
  crcBitStep (crcBitStep (crcBitStep (crcBitStep
    (crcBitStep (crcBitStep (crcBitStep (crcBitStep x)))))))

/-- Spec-side CRC: the table-driven loop whose table entries are
generated from the polynomial `0xEDB88320` (reflected), rather than
hard-coded. -/
def specCrcByteStep (crc byte : Nat) : Nat :=
  crcBitStep8 ((crc ^^^ byte) % 256) ^^^ (crc >>> 8)

/-- Spec-side CRC-32: initial register `0xFFFFFFFF`, one byte at a time,
final bit inversion. -/
def specCrc32 (data : List Nat) : Nat :=
  (data.foldl specCrcByteStep 0xFFFFFFFF) ^^^ 0xFFFFFFFF

/-! ## XOR cipher (`CryptoManager._xor_encrypt` / `_xor_decrypt`) -/

/-- Inner loop of `_xor_encrypt`: byte `i` of the output is
`data[i] XOR key[i % len(key)]`. -/
def xorBytes (key : List Nat) (i : Nat) : List Nat → List Nat
  | [] => []
  | b :: rest => (b ^^^ key.getD (i % key.length) 0) :: xorBytes key (i + 1) rest

/-- `CryptoManager._xor_encrypt`: an empty key returns the data unchanged. -/
def xorEncrypt (data key : List Nat) : List Nat :=
  if key = [] then data else xorBytes key 0 data

/-- `CryptoManager._xor_decrypt` is the same function as `_xor_encrypt`. -/
def xorDecrypt (data key : List Nat) : List Nat :=
  xorEncrypt data key

/-! ## KeyDerivation (`CryptoManager._derive_aes_key_stm32_compatible`) -/

/-- Slice assignment `buf[start : start + vals.length] = vals` on a list
(the Python `bytearray` slice write of equal length). -/
def assignSlice (buf : List Nat) (start : Nat) (vals : List Nat) : List Nat :=
  buf.take start ++ vals ++ buf.drop (start + vals.length)

/-- The two default salt words (`0x05D8FF35`, `0x3132564E`) written
little-endian into bytes 24–31 of the scratch buffer, one byte per
assignment as in the source loop. -/
def mixSalt (buf : List Nat) : List Nat :=
  let w0 : Nat := 0x05D8FF35
  let w1 : Nat := 0x3132564E
  buf.set 24 ((w0 >>> 0) % 256) |>.set 25 ((w0 >>> 8) % 256)
    |>.set 26 ((w0 >>> 16) % 256) |>.set 27 ((w0 >>> 24) % 256)
    |>.set 28 ((w1 >>> 0) % 256) |>.set 29 ((w1 >>> 8) % 256)
    |>.set 30 ((w1 >>> 16) % 256) |>.set 31 ((w1 >>> 24) % 256)

/-- One round of the key-strengthening loop:
`key[i] = temp_key[i] ^ temp_key[i+16] ^ (round & 0xFF)` followed by
`key[i] ^= (i + round) & 0xFF`. -/
def deriveRoundKey (r : Nat) (temp : List Nat) : List Nat :=
  (List.range 16).map (fun i =>
    ((temp.getD i 0 ^^^ temp.getD (i + 16) 0) ^^^ (r % 256)) ^^^ ((i + r) % 256))

/-- The ten-round loop: after each round both halves of the scratch buffer
are overwritten with the candidate key; the key of the last round is the
result. -/
def deriveRounds (temp : List Nat) : List Nat :=
  (List.foldl (fun (st : List Nat × List Nat) r =>
      let key := deriveRoundKey r st.1
      (key ++ key, key))
    (temp, List.replicate 16 0) (List.range 10)).2

/-- `CryptoManager._derive_aes_key_stm32_compatible` with the default salt:
the raw-key hex bypass, then the scratch buffer, then ten rounds. -/
def deriveAesKeyStm32 (password : String) : List Nat :=
  let hexTry : Option (List Nat) :=
    if password.length = 32 then
      match pyFromHex password with
      | some kb => if kb.length = 16 then some kb else none
      | none => none
    else none
  match hexTry with
  | some kb => kb
  | none =>
      let pwd := utf8Bytes password
      let pwdLen := min pwd.length 24
      let temp0 := assignSlice (List.replicate 32 0) 0 (pwd.take pwdLen)
      deriveRounds (mixSalt temp0)

/-- Whether the raw-key bypass of the derivation applies: a 32-character
password decoding as hex to 16 bytes. -/
def hexBypass (password : String) : Bool :=
  password.length == 32 &&
    (pyFromHex password).any (fun kb => kb.length == 16)

/-- Spec-side scratch buffer, following the spec's words: bytes 0–23 are
the UTF-8 password bytes truncated to 24 and zero-padded, bytes 24–31 are
the two fixed 32-bit little-endian constants. -/
def specScratch (password : String) : List Nat :=
  let pwd := (utf8Bytes password).take 24
  pwd ++ List.replicate (24 - pwd.length) 0 ++
    [0x35, 0xFF, 0xD8, 0x05, 0x4E, 0x56, 0x32, 0x31]

/-- Spec-side single round on the scratch buffer. -/
def specRound (r : Nat) (scratch : List Nat) : List Nat :=
  (List.range 16).map (fun i =>
    ((scratch.getD i 0 ^^^ scratch.getD (i + 16) 0) ^^^ (r % 256)) ^^^ ((i + r) % 256))

/-- Spec-side round iteration: `remaining` rounds starting at round index
`r`; after every round but the last, both scratch halves become the
candidate key. -/
def specRoundsAux : Nat → Nat → List Nat → List Nat
  | 0, _, _ => []
  | 1, r, scratch => specRound r scratch
  | n + 2, r, scratch =>
      specRoundsAux (n + 1) (r + 1) (specRound r scratch ++ specRound r scratch)

/-- KeyDerivation.generate for AES-128-CBC with a password, modelled from
the spec's numbered steps (hex bypass, scratch buffer, 10 rounds). -/
def specDeriveAesKey (password : String) : List Nat :=
  if hexBypass password then (pyFromHex password).getD []
  else specRoundsAux 10 0 (specScratch password)

/-! ## CipherEngine AES-128 STM32 format
(`CryptoManager._aes_encrypt_stm32_format`) -/

/-- PKCS7 padding to the 16-byte AES block size. -/
def pkcs7Pad (data : List Nat) : List Nat :=
  let padLen := 16 - data.length % 16
  data ++ List.replicate padLen padLen

/-- Fuelled loop splitting a byte string into successive 16-byte blocks;
the fuel only bounds the recursion depth (one unit per nonempty step). -/
def toBlocksFuel : Nat → List Nat → List (List Nat)
  | 0, _ => []
  | fuel + 1, data =>
      if data = [] then []
      else data.take 16 :: toBlocksFuel fuel (data.drop 16)

/-- Split a byte string into successive 16-byte blocks. -/
def toBlocks (data : List Nat) : List (List Nat) :=
  toBlocksFuel data.length data

/-- CBC mode over an abstract block cipher `enc`: each plaintext block is
XORed with the previous ciphertext block (the IV at first) before
encryption. -/
def cbcEncryptBlocks (enc : List Nat → List Nat) (prev : List Nat) :
    List (List Nat) → List (List Nat)
  | [] => []
  | b :: rest =>
      let c := enc (List.zipWith (fun x y => x ^^^ y) b prev)
      c :: cbcEncryptBlocks enc c rest

/-- `struct.pack('<I', n)`: 4 little-endian bytes; a `struct.error`
(modelled as `none`) outside `[0, 2^32)`. -/
def pack32? (n : Nat) : Option (List Nat) :=
  if n < 2 ^ 32 then some [n % 256, n / 256 % 256, n / 2 ^ 16 % 256, n / 2 ^ 24 % 256]
  else none

/-- `struct.pack('<H', n)` on a Python int: 2 little-endian bytes; a
`struct.error` (modelled as `none`) outside `[0, 65536)`. -/
def pack16? (n : Int) : Option (List Nat) :=
  if 0 ≤ n ∧ n < 65536 then some [n.toNat % 256, n.toNat / 256] else none

/-- `CryptoManager._parse_firmware_version`: strip leading `v`s, split on
dots, parse each part as an int (any failure, or a missing/empty string,
yields the default `(1, 0, 0, 1)`), pad with zeros to 4 parts, keep the
first 4. -/
def parseFirmwareVersion (versionStr : Option String) : List Int :=
  match versionStr with
  | none => [1, 0, 0, 1]
  | some v =>
      if v = "" then [1, 0, 0, 1]
      else
        match (splitDots (stripV v)).mapM pyInt? with
        | none => [1, 0, 0, 1]
        | some parts => (parts ++ List.replicate (4 - parts.length) 0).take 4

/-- The metadata dictionary returned by `_aes_encrypt_stm32_format`. -/
structure AesMetadata where
  algorithm : String
  key_length : Nat
  iv : String
  block_size : Nat
  firmware_size : Nat
  encrypted_size : Nat
  header_size : Nat
deriving DecidableEq

/-- `CryptoManager._aes_encrypt_stm32_format`, parameterized by the AES
block encryption `aesBlock` (the `cryptography` library primitive, keyed)
and `md5` (from `hashlib`), with the random IV passed explicitly.
Returns `none` where the Python code raises (`struct.pack` range error). -/
def aesEncryptStm32Format (aesBlock : List Nat → List Nat → List Nat)
    (md5 : List Nat → List Nat) (iv : List Nat)
    (data : List Nat) (key : List Nat) (firmwareVersion : Option String) :
    Option (List Nat × AesMetadata) := do
  let encryptedData := (cbcEncryptBlocks (aesBlock key) iv (toBlocks (pkcs7Pad data))).flatten
  let firmwareCrc32 := calculateCrc32Stm32 data
  let encryptedCrc32 := calculateCrc32Stm32 encryptedData
  let keyHash := md5 key
  let parts := parseFirmwareVersion firmwareVersion
  let p0 ← pack32? 0x41455331
  let p1 ← pack32? 0x01
  let p2 ← pack32? data.length
  let p3 ← pack32? encryptedData.length
  let p4 ← pack32? firmwareCrc32
  let p5 ← pack32? encryptedCrc32
  let v0 ← pack16? (parts.getD 0 0)
  let v1 ← pack16? (parts.getD 1 0)
  let v2 ← pack16? (parts.getD 2 0)
  let v3 ← pack16? (parts.getD 3 0)
  let header := p0 ++ p1 ++ p2 ++ p3 ++ p4 ++ p5 ++ iv ++ keyHash ++ v0 ++ v1 ++ v2 ++ v3
  pure (header ++ encryptedData,
    { algorithm := "aes-128-cbc"
      key_length := key.length
      iv := bytesToHex iv
      block_size := 16
      firmware_size := data.length
      encrypted_size := encryptedData.length
      header_size := header.length })

/-- Unguarded 4-byte little-endian encoding (for stating header layout). -/
def le32 (n : Nat) : List Nat :=
  [n % 256, n / 256 % 256, n / 2 ^ 16 % 256, n / 2 ^ 24 % 256]

/-- Unguarded 2-byte little-endian encoding of a version component. -/
def le16 (n : Int) : List Nat :=
  [n.toNat % 256, n.toNat / 256]

/-! ## FirmwareCatalog (`server/core/firmware_manager.py`) -/

/-- A firmware record (`FirmwareInfo`), with the two open dictionaries
modelled as string-keyed association lists. -/
structure FirmwareInfo where
  id : String
  filename : String
  original_filename : String
  version : String
  size : Nat
  checksum : String
  upload_time : String
  target_device : String
  is_encrypted : Bool := false
  encryption_algorithm : String := "none"
  encryption_metadata : List (String × String) := []
  metadata : List (String × String) := []
deriving DecidableEq

/-- Python dict lookup on an insertion-ordered association list. -/
def dictGet (l : List (String × α)) (k : String) : Option α :=
  (l.find? (fun p => p.1 == k)).map (fun p => p.2)

/-- Python dict assignment: replace in place if the key is present, else
append at the end (insertion order). -/
def dictSet (l : List (String × α)) (k : String) (v : α) : List (String × α) :=
  match l with
  | [] => [(k, v)]
  | (k', v') :: rest =>
      if k' == k then (k, v) :: rest else (k', v') :: dictSet rest k v

/-- Python `del d[k]` (removes the first matching entry). -/
def dictErase (l : List (String × α)) (k : String) : List (String × α) :=
  match l with
  | [] => []
  | (k', v') :: rest => if k' == k then rest else (k', v') :: dictErase rest k

/-- Python `dict.update(other)`. -/
def dictUpdate (l other : List (String × α)) : List (String × α) :=
  other.foldl (fun acc p => dictSet acc p.1 p.2) l

/-- The catalog state: the in-memory `firmwares` mapping (insertion
ordered, like a Python dict) and the flat storage directory
(filename ↦ content). -/
structure CatalogState where
  firmwares : List (String × FirmwareInfo)
  files : List (String × List Nat)
deriving DecidableEq

/-- The `version_tuple` helper inside `_compare_versions`: strip leading
`v`s, split on dots, parse every part as an int — with no padding and no
truncation; any parse failure yields `(0, 0, 0, 0)`. -/
def compareVersionTuple (version : String) : List Int :=
  match (splitDots (stripV version)).mapM pyInt? with
  | some parts => parts
  | none => [0, 0, 0, 0]

/-- Python `<` on int tuples of possibly different lengths (a strict
prefix is smaller). -/
def pyTupleLt : List Int → List Int → Bool
  | [], [] => false
  | [], _ :: _ => true
  | _ :: _, [] => false
  | x :: xs, y :: ys => if x < y then true else if x = y then pyTupleLt xs ys else false

/-- `FirmwareManager._compare_versions`: 1, -1 or 0. -/
def compareVersions (v1 v2 : String) : Int :=
  let t1 := compareVersionTuple v1
  let t2 := compareVersionTuple v2
  if pyTupleLt t2 t1 then 1 else if pyTupleLt t1 t2 then -1 else 0

/-- Python `<` on strings: lexicographic on code points. -/
def listCharLt : List Char → List Char → Bool
  | [], [] => false
  | [], _ :: _ => true
  | _ :: _, [] => false
  | c :: cs, d :: ds =>
      if c.toNat < d.toNat then true
      else if c.toNat = d.toNat then listCharLt cs ds else false

/-- Python `<` on strings. -/
def strLt (s t : String) : Bool :=
  listCharLt s.toList t.toList

/-- Python `<` on the `(version_tuple, upload_time)` sort keys of
`list_firmwares`. -/
def sortKeyLt (a b : List Int × String) : Bool :=
  pyTupleLt a.1 b.1 || (a.1 == b.1 && strLt a.2 b.2)

/-- The `version_sort_key` of `list_firmwares`: the version parsed to a
4-component int tuple — zero-padded and truncated to 4 — paired with the
upload time; any parse failure yields `((0,0,0,0), upload_time)`. -/
def versionSortKey (fw : FirmwareInfo) : List Int × String :=
  match (splitDots (stripV fw.version)).mapM pyInt? with
  | some parts => ((parts ++ List.replicate (4 - parts.length) 0).take 4, fw.upload_time)
  | none => ([0, 0, 0, 0], fw.upload_time)

/-- The order in which Python's stable descending sort may keep two
records: the first key is not smaller than the second. -/
def listingLE (a b : FirmwareInfo) : Bool :=
  ! sortKeyLt (versionSortKey a) (versionSortKey b)

/-- The filtering stage of `FirmwareManager.list_firmwares`: restrict to a
target device (a non-empty filter string) and to an encryption flag. -/
def filteredFirmwares (st : CatalogState) (target_device : Option String)
    (encrypted_only : Option Bool) : List FirmwareInfo :=
  let fws : List FirmwareInfo := st.firmwares.map (fun p => p.2)
  let fws1 : List FirmwareInfo := match target_device with
    | some t => if t = "" then fws else fws.filter (fun fw => fw.target_device == t)
    | none => fws
  match encrypted_only with
  | some b => fws1.filter (fun fw => fw.is_encrypted == b)
  | none => fws1

/-- `FirmwareManager.list_firmwares`: filter, then sort descending by
`version_sort_key` (Python `sort(key=..., reverse=True)` is a stable
descending sort, here a stable merge sort under `listingLE`). -/
def listFirmwares (st : CatalogState) (target_device : Option String)
    (encrypted_only : Option Bool) : List FirmwareInfo :=
  (filteredFirmwares st target_device encrypted_only).mergeSort listingLE

/-- `FirmwareManager.get_latest_version_firmware`: start from the first
element of the sorted listing and replace it whenever `_compare_versions`
reports a strictly greater version. -/
def getLatestVersionFirmware (st : CatalogState) (target_device : Option String) :
    Option FirmwareInfo :=
  match listFirmwares st target_device none with
  | [] => none
  | latest :: rest =>
      some (rest.foldl
        (fun cur fw => if compareVersions fw.version cur.version = 1 then fw else cur)
        latest)

/-- Consume a literal `'.'` at the head of the input. -/
def afterDot : List Char → Option (List Char)
  | c :: rest => if c = '.' then some rest else none
  | [] => none

/-- Match `\d+(\.\d+){k-1}` at the current position (greedy digit runs
separated by literal dots), returning the matched text. -/
def matchDotted : Nat → List Char → Option (List Char)
  | 0, _ => none
  | 1, cs =>
      let run := cs.takeWhile Char.isDigit
      if run = [] then none else some run
  | k + 2, cs =>
      let run := cs.takeWhile Char.isDigit
      if run = [] then none
      else
        match afterDot (cs.drop run.length) with
        | none => none
        | some rest =>
            match matchDotted (k + 1) rest with
            | none => none
            | some tail => some (run ++ '.' :: tail)

/-- Leftmost match of `re.search(r'v?(\d+(\.\d+){k-1})', s, IGNORECASE)`:
try every position left to right, consuming an optional `v`/`V` before
the captured dotted group. -/
def searchDotted (k : Nat) : List Char → Option String
  | [] => none
  | c :: rest =>
      let here :=
        if c.isDigit then matchDotted k (c :: rest)
        else if c = 'v' ∨ c = 'V' then matchDotted k rest
        else none
      match here with
      | some g => some (String.mk g)
      | none => searchDotted k rest

/-- Leftmost match of `re.search(r'(\d{8})', s)`: the first position with
eight consecutive ASCII digits. -/
def searchEightDigits : List Char → Option String
  | [] => none
  | c :: rest =>
      let first8 := (c :: rest).take 8
      if first8.length = 8 ∧ first8.all Char.isDigit then some (String.mk first8)
      else searchEightDigits rest

/-- Fuelled form of the `_normalize_version` while-loop body. -/
def padVersionPartsFuel : Nat → Nat → List String → List String
  | 0, _, parts => parts
  | fuel + 1, time, parts =>
      if parts.length < 4 then
        if parts.length = 3 then
          padVersionPartsFuel fuel time (parts ++ [toString (time % 10000)])
        else padVersionPartsFuel fuel time (parts ++ ["0"])
      else parts

/-- The while-loop of `_normalize_version`: pad the parts to 4, using a
time-derived build number when exactly 3 parts are present and `"0"`
otherwise.  Four units of fuel always run the loop to completion (each
iteration adds one part and the loop stops at 4). -/
def padVersionParts (time : Nat) (parts : List String) : List String :=
  padVersionPartsFuel 4 time parts

/-- Python `'.'.join(parts)`. -/
def joinDots : List String → String
  | [] => ""
  | p :: rest => rest.foldl (fun acc q => acc ++ "." ++ q) p

/-- `FirmwareManager._normalize_version`. -/
def normalizeVersion (time : Nat) (version : String) : String :=
  joinDots ((padVersionParts time (splitDots version)).take 4)

/-- `FirmwareManager._extract_version_from_filename`: the dotted patterns
in priority order 4 > 3 > 2 > 1 parts, then an 8-digit date-like token,
then the default `"1.0.0.0"`. -/
def extractVersionFromFilename (time : Nat) (filename : String) : String :=
  let cs := filename.toList
  match searchDotted 4 cs <|> searchDotted 3 cs <|> searchDotted 2 cs <|> searchDotted 1 cs with
  | some version => normalizeVersion time version
  | none =>
      match searchEightDigits cs with
      | some ts => "1.0.0." ++ ts
      | none => "1.0.0.0"

/-- `pathlib.Path.stem`: the name up to its last dot, when that dot is
neither leading nor trailing. -/
def stemOf (filename : String) : String :=
  let cs := filename.toList
  match ((List.range cs.length).filter (fun i => cs.getD i ' ' = '.')).getLast? with
  | some i => if 0 < i ∧ i < cs.length - 1 then String.mk (cs.take i) else filename
  | none => filename

/-- Whether a filename matches the `*.bin` glob. -/
def endsBin (s : String) : Bool :=
  s.toList.reverse.take 4 == ['n', 'i', 'b', '.']

/-- `FirmwareManager.add_firmware`, parameterized by the checksum function
(`hashlib.md5` hex digest), the current unix time and ISO timestamp.
`none` models the `FileNotFoundError` raise for a missing file. -/
def addFirmware (chk : List Nat → String) (time : Nat) (nowIso : String)
    (st : CatalogState) (fileName original_filename : String)
    (version : Option String) (target_device : String)
    (metadata : List (String × String)) : Option (FirmwareInfo × CatalogState) :=
  match dictGet st.files fileName with
  | none => none
  | some content =>
      let checksum := chk content
      let firmware_id := "fw_" ++ toString time ++ "_" ++ stemOf fileName
      let vers := match version with
        | some v => if v = "" then extractVersionFromFilename time original_filename else v
        | none => extractVersionFromFilename time original_filename
      let fw : FirmwareInfo :=
        { id := firmware_id
          filename := fileName
          original_filename := original_filename
          version := vers
          size := content.length
          checksum := checksum
          upload_time := nowIso
          target_device := target_device
          metadata := metadata }
      some (fw, { st with firmwares := dictSet st.firmwares firmware_id fw })

/-- `FirmwareManager.remove_firmware`: `false` for an unknown id; else
delete the backing file (a no-op if absent) and the record. -/
def removeFirmware (st : CatalogState) (firmware_id : String) : Bool × CatalogState :=
  match dictGet st.firmwares firmware_id with
  | none => (false, st)
  | some fw =>
      (true, { firmwares := dictErase st.firmwares firmware_id
               files := dictErase st.files fw.filename })

/-- `FirmwareManager._create_firmware_from_file`. -/
def createFirmwareFromFile (chk : List Nat → String) (time : Nat)
    (ctimeIso : String → String) (scanIso : String)
    (name : String) (content : List Nat) : FirmwareInfo :=
  { id := "fw_" ++ toString time ++ "_" ++ stemOf name
    filename := name
    original_filename := name
    version := extractVersionFromFilename time name
    size := content.length
    checksum := chk content
    upload_time := ctimeIso name
    target_device := "STM32F103ZET6"
    metadata := [("scanned", "true"), ("scan_time", scanIso)] }

/-- `FirmwareManager._scan_existing_files`: synthesize a record for every
`*.bin` file in the storage directory. -/
def scanExistingFiles (chk : List Nat → String) (time : Nat)
    (ctimeIso : String → String) (scanIso : String)
    (files : List (String × List Nat)) : List (String × FirmwareInfo) :=
  files.foldl (fun acc p =>
    if endsBin p.1 then
      let fw := createFirmwareFromFile chk time ctimeIso scanIso p.1 p.2
      dictSet acc fw.id fw
    else acc) []

/-- Outcome of the source's `open(file_path, 'wb')` followed by
`f.write(encrypted_content)`: `ok` means the whole ciphertext was
written; `openFailed` means `open` itself raised, before touching the
file; `failedAfter k` means `open` succeeded — truncating the file — and
the write then raised after only the first `k` bytes had reached it. -/
inductive WriteOutcome where
  | ok : WriteOutcome
  | openFailed : WriteOutcome
  | failedAfter : Nat → WriteOutcome
deriving DecidableEq

/-- `FirmwareManager.encrypt_firmware` (encrypt-in-place), parameterized
by the cipher call (`crypto_manager.encrypt_firmware` with the chosen
algorithm/key/password baked in; `none` models a cipher exception), the
file-write outcome (`WriteOutcome`, per filename and data), and the
checksum function.  The source opens the backing file with mode `'wb'`
— which truncates it — before writing, so a write that fails mid-way
leaves the file holding only a prefix of the ciphertext; the records
map is updated only after the write completed.  Returns the success
flag and the new state; every raised exception is caught and mapped to
`false`. -/
def encryptFirmwareOp
    (cipher : List Nat → Option (List Nat × List (String × String)))
    (writeF : String → List Nat → WriteOutcome)
    (chk : List Nat → String)
    (st : CatalogState) (firmware_id : String) (algorithmName : String)
    (password : Option String) (key : Option (List Nat)) : Bool × CatalogState :=
  match dictGet st.firmwares firmware_id with
  | none => (false, st)
  | some fw =>
      match dictGet st.files fw.filename with
      | none => (false, st)
      | some content =>
          if content = [] then (false, st)
          else if fw.is_encrypted then (true, st)
          else
            match cipher content with
            | none => (false, st)
            | some (encrypted, encMeta) =>
                match writeF fw.filename encrypted with
                | WriteOutcome.openFailed => (false, st)
                | WriteOutcome.failedAfter k =>
                    (false, { st with
                      files := dictSet st.files fw.filename (encrypted.take k) })
                | WriteOutcome.ok =>
                    let files' := dictSet st.files fw.filename encrypted
                    let md := dictUpdate fw.encryption_metadata encMeta
                    let md := match password with
                      | some pw => if pw ≠ "" then dictSet md "password" pw else
                          match key with
                          | some k => if k ≠ [] then dictSet md "password" (bytesToHex k) else md
                          | none => md
                      | none =>
                          match key with
                          | some k => if k ≠ [] then dictSet md "password" (bytesToHex k) else md
                          | none => md
                    let fw' := { fw with
                      is_encrypted := true
                      encryption_algorithm := algorithmName
                      encryption_metadata := md
                      size := encrypted.length
                      checksum := chk encrypted }
                    (true, { firmwares := dictSet st.firmwares firmware_id fw'
                             files := files' })

/-- The catalog id invariant: record keys are unique and every record
carries its own key in its `id` field. -/
def CatalogKeysOk (firmwares : List (String × FirmwareInfo)) : Prop :=
  (firmwares.map (fun p => p.1)).Nodup ∧ ∀ p ∈ firmwares, p.2.id = p.1

/-- Whether a version string has exactly 4 dot-separated components, each
parsing as an integer. -/
def hasFourIntComponents (version : String) : Bool :=
  let parts := splitDots version
  parts.length == 4 && parts.all (fun p => (pyInt? p).isSome)

/-- Whether a version string parses, after stripping `v`s, to exactly 4
integer components (the situation in which `_compare_versions` and the
`list_firmwares` sort key agree). -/
def versionParsesTo4 (version : String) : Bool :=
  match (splitDots (stripV version)).mapM pyInt? with
  | some parts => parts.length == 4
  | none => false

/-- A "good" version component: non-empty, all ASCII digits. -/
def goodPart (cs : List Char) : Prop :=
  cs ≠ [] ∧ ∀ c ∈ cs, c.isDigit = true

/-! ## Concrete instances used by witnesses and counterexamples -/

/-- The identity block cipher, a stand-in for the abstract AES parameter. -/
def idBlockCipher : List Nat → List Nat → List Nat := fun _ b => b

/-- A constant 16-byte hash, a stand-in for the abstract MD5 parameter. -/
def constMd5 : List Nat → List Nat := fun _ => List.replicate 16 0

/-- A file write that always completes. -/
def okWrite : String → List Nat → WriteOutcome := fun _ _ => WriteOutcome.ok

/-- A file write that raises immediately after the truncating `open`. -/
def failWrite0 : String → List Nat → WriteOutcome :=
  fun _ _ => WriteOutcome.failedAfter 0

/-- A checksum stub. -/
def constChk : List Nat → String := fun _ => "chk"

/-- A record whose version has 2 dotted components and a late upload. -/
def fwTwoPart : FirmwareInfo :=
  { id := "a"
    filename := "a.bin"
    original_filename := "a.bin"
    version := "1.2"
    size := 1
    checksum := "x"
    upload_time := "2024-02-01T00:00:00"
    target_device := "STM32F103ZET6" }

/-- A record whose version has 4 dotted components and an early upload. -/
def fwFourPart : FirmwareInfo :=
  { id := "b"
    filename := "b.bin"
    original_filename := "b.bin"
    version := "1.2.0.0"
    size := 1
    checksum := "y"
    upload_time := "2024-01-01T00:00:00"
    target_device := "STM32F103ZET6" }

/-- A catalog holding `fwTwoPart` then `fwFourPart`. -/
def stTwoFour : CatalogState :=
  { firmwares := [("a", fwTwoPart), ("b", fwFourPart)], files := [] }

/-- Records with 4-component versions `1.0.0.0`, `1.2.0.0`, `1.1.9.9`. -/
def fwV1000 : FirmwareInfo :=
  { id := "r1"
    filename := "r1.bin"
    original_filename := "r1.bin"
    version := "1.0.0.0"
    size := 1
    checksum := "c1"
    upload_time := "2024-01-01T00:00:00"
    target_device := "STM32F103ZET6" }

/-- See `fwV1000`. -/
def fwV1200 : FirmwareInfo :=
  { id := "r2"
    filename := "r2.bin"
    original_filename := "r2.bin"
    version := "1.2.0.0"
    size := 1
    checksum := "c2"
    upload_time := "2024-01-02T00:00:00"
    target_device := "STM32F103ZET6" }

/-- See `fwV1000`. -/
def fwV1199 : FirmwareInfo :=
  { id := "r3"
    filename := "r3.bin"
    original_filename := "r3.bin"
    version := "1.1.9.9"
    size := 1
    checksum := "c3"
    upload_time := "2024-01-03T00:00:00"
    target_device := "STM32F103ZET6" }

/-- A catalog of the three 4-component records. -/
def stThree : CatalogState :=
  { firmwares := [("r1", fwV1000), ("r2", fwV1200), ("r3", fwV1199)], files := [] }

/-- A record already flagged encrypted. -/
def fwEnc : FirmwareInfo :=
  { id := "e1"
    filename := "e1.bin"
    original_filename := "e1.bin"
    version := "1.0.0.0"
    size := 4
    checksum := "ce"
    upload_time := "2024-01-01T00:00:00"
    target_device := "STM32F103ZET6"
    is_encrypted := true
    encryption_algorithm := "xor" }

/-- `fwEnc` in a catalog whose backing file is missing. -/
def stEncMissingFile : CatalogState :=
  { firmwares := [("e1", fwEnc)], files := [] }

/-- `fwEnc` in a catalog whose backing file is present and non-empty. -/
def stEncOk : CatalogState :=
  { firmwares := [("e1", fwEnc)], files := [("e1.bin", [1, 2, 3, 4])] }

/-- A catalog with no records and one uploaded file awaiting `add`. -/
def stUpload : CatalogState :=
  { firmwares := [], files := [("up.bin", [1, 2, 3])] }

/-- An unencrypted record. -/
def fwPlain : FirmwareInfo :=
  { id := "p1"
    filename := "p1.bin"
    original_filename := "p1.bin"
    version := "1.0.0.0"
    size := 4
    checksum := "cp"
    upload_time := "2024-01-01T00:00:00"
    target_device := "STM32F103ZET6" }

/-- `fwPlain` in a catalog whose backing file is present and non-empty. -/
def stPlain : CatalogState :=
  { firmwares := [("p1", fwPlain)], files := [("p1.bin", [1, 2, 3, 4])] }

/-! # Theorems

Helper lemmas first, then one theorem per claim (with witnesses and
counterexamples where required). -/

/-! ## XOR cipher -/

theorem xorBytes_involutive (key : List Nat) :
    ∀ (data : List Nat) (i : Nat), xorBytes key i (xorBytes key i data) = data
  | [], _ => rfl
  | b :: rest, i => by
      simp [xorBytes, Nat.xor_assoc, Nat.xor_self, Nat.xor_zero,
        xorBytes_involutive key rest (i + 1)]

/-- **C10.** For every byte string `D` and key `K`,
`xorDecrypt (xorEncrypt D K) K = D`, where `xorEncrypt` XORs byte `i`
with `key[i mod len(key)]` and decryption is the same function. -/
theorem xor_roundtrip : ∀ (D K : List Nat), xorDecrypt (xorEncrypt D K) K = D := by
  intro D K
  unfold xorDecrypt xorEncrypt
  by_cases hk : K = []
  · simp [hk]
  · simp [hk, xorBytes_involutive]

/-! ## CRC-32 -/

theorem crc32_table_gen :
    (List.range 256).all (fun n => crc32_table.getD n 0 == crcBitStep8 n) = true := by decide

theorem crc32_table_getD (n : Nat) (h : n < 256) : crc32_table.getD n 0 = crcBitStep8 n := by
  have h2 := List.all_eq_true.mp crc32_table_gen n (List.mem_range.mpr h)
  exact beq_iff_eq.mp h2

theorem crcByteStep_eq_spec (crc b : Nat) : crcByteStep crc b = specCrcByteStep crc b := by
  unfold crcByteStep specCrcByteStep
  rw [crc32_table_getD _ (Nat.mod_lt _ (by decide))]

/-- **C3.** `_calculate_crc32_stm32` is the reflected table-driven CRC-32
with polynomial `0xEDB88320` (its hard-coded table agrees everywhere with
the polynomial generator, so the whole computation agrees with the
generated-table CRC), with initial register `0xFFFFFFFF`, one byte per
step and final inversion; its check values are
`crc32(b"") = 0` and `crc32(b"123456789") = 0xCBF43926`. -/
theorem crc32_stm32_reflected_table_crc :
    (∀ data : List Nat, calculateCrc32Stm32 data = specCrc32 data) ∧
    calculateCrc32Stm32 [] = 0x00000000 ∧
    calculateCrc32Stm32 (utf8Bytes "123456789") = 0xCBF43926 := by
  refine ⟨fun data => ?_, by decide, by decide⟩
  unfold calculateCrc32Stm32 specCrc32
  have hf : crcByteStep = specCrcByteStep :=
    funext fun a => funext fun b => crcByteStep_eq_spec a b
  rw [hf]

/-! ## Key derivation -/

theorem take_min_24 (pwd : List Nat) : pwd.take (min pwd.length 24) = pwd.take 24 := by
  rcases Nat.le_total pwd.length 24 with h | h
  · rw [Nat.min_eq_left h, List.take_length, List.take_of_length_le h]
  · rw [Nat.min_eq_right h]

theorem scratch_eq (p : String) :
    mixSalt (assignSlice (List.replicate 32 0) 0
      ((utf8Bytes p).take (min (utf8Bytes p).length 24))) = specScratch p := by
  rw [take_min_24]
  set pwdT := (utf8Bytes p).take 24 with hpwdT
  set L := pwdT ++ List.replicate (24 - pwdT.length) 0 with hLdef
  have hassign : assignSlice (List.replicate 32 0) 0 pwdT
      = L ++ List.replicate 8 0 := by
    unfold assignSlice
    rw [List.take_zero, List.drop_replicate]
    have h32 : (32 : Nat) - (0 + pwdT.length) = (24 - pwdT.length) + 8 := by
      have : pwdT.length ≤ 24 := by simp [hpwdT, List.length_take]
      omega
    rw [h32, List.replicate_add, hLdef, List.nil_append, List.append_assoc]
  have hL : L.length = 24 := by
    have : pwdT.length ≤ 24 := by simp [hpwdT, List.length_take]
    simp [hLdef]; omega
  have hset : ∀ (R : List Nat) (j x : Nat), 24 ≤ j →
      (L ++ R).set j x = L ++ R.set (j - 24) x := by
    intro R j x hj
    rw [List.set_append, hL, if_neg (by omega)]
  rw [hassign]
  unfold mixSalt
  norm_num [Nat.shiftRight_eq_div_pow]
  rw [hset _ _ _ (by norm_num), hset _ _ _ (by norm_num), hset _ _ _ (by norm_num),
    hset _ _ _ (by norm_num), hset _ _ _ (by norm_num), hset _ _ _ (by norm_num),
    hset _ _ _ (by norm_num), hset _ _ _ (by norm_num)]
  norm_num
  have hchain : ((((((((List.replicate 8 (0:Nat)).set 0 53).set 1 255).set 2 216).set 3 5).set
      4 78).set 5 86).set 6 50).set 7 49 = [53, 255, 216, 5, 78, 86, 50, 49] := by decide
  rw [hchain]
  unfold specScratch
  rw [← hpwdT, hLdef]

theorem deriveRounds_eq_specRounds (temp : List Nat) :
    deriveRounds temp = specRoundsAux 10 0 temp := rfl

theorem derive_matches_spec (p : String) : deriveAesKeyStm32 p = specDeriveAesKey p := by
  unfold deriveAesKeyStm32 specDeriveAesKey hexBypass
  by_cases h32 : p.length = 32
  · cases hfh : pyFromHex p with
    | none =>
        simp [h32, hfh, ← scratch_eq p, deriveRounds_eq_specRounds]
    | some kb =>
        by_cases h16 : kb.length = 16
        · simp [h32, hfh, h16]
        · simp [h32, hfh, h16, ← scratch_eq p, deriveRounds_eq_specRounds]
  · simp [h32, ← scratch_eq p, deriveRounds_eq_specRounds]

/-- **C2.** The embedded-compatible AES-128 derivation of the source — the
raw-key hex bypass, the 32-byte scratch buffer (password truncated to 24
and zero-padded, then the two little-endian constants), and the ten
double-XOR rounds overwriting both scratch halves — agrees with the
spec's step-by-step description on every password (and, being a pure
function of the password, is deterministic). -/
theorem key_derivation_matches_spec :
    ∀ p : String, deriveAesKeyStm32 p = specDeriveAesKey p :=
  derive_matches_spec

theorem specRound_dup (k : List Nat) (hk : k.length = 16) (r : Nat) :
    specRound r (k ++ k) = (List.range 16).map (fun i => (r % 256) ^^^ ((i + r) % 256)) := by
  unfold specRound
  apply List.map_congr_left
  intro i hi
  have hi16 : i < 16 := List.mem_range.mp hi
  have h1 : (k ++ k).getD i 0 = k.getD i 0 := by
    rw [List.getD_eq_getElem?_getD, List.getD_eq_getElem?_getD, List.getElem?_append,
      if_pos (by omega)]
  have h2 : (k ++ k).getD (i + 16) 0 = k.getD i 0 := by
    rw [List.getD_eq_getElem?_getD, List.getD_eq_getElem?_getD, List.getElem?_append,
      if_neg (by omega)]
    have hsub : i + 16 - k.length = i := by omega
    rw [hsub]
  rw [h1, h2, Nat.xor_self, Nat.zero_xor]

theorem specRounds_const (temp : List Nat) :
    specRoundsAux 10 0 temp = (List.range 16).map (fun i => 9 ^^^ ((i + 9) % 256)) := by
  have h0 : specRoundsAux 10 0 temp
      = specRoundsAux 8 2 (specRound 1 (specRound 0 temp ++ specRound 0 temp)
          ++ specRound 1 (specRound 0 temp ++ specRound 0 temp)) := rfl
  rw [h0, specRound_dup (specRound 0 temp) (by simp [specRound]) 1]
  decide

theorem derive_const_of_nonbypass (p : String) (h : hexBypass p = false) :
    deriveAesKeyStm32 p = (List.range 16).map (fun i => 9 ^^^ ((i + 9) % 256)) := by
  rw [derive_matches_spec p]
  unfold specDeriveAesKey
  rw [h]
  simp [specRounds_const]

/-- **C4.** For any two passwords to which the raw-key hex bypass does not
apply, the derived AES-128 keys coincide: after round 0 both scratch
halves hold the same bytes, every later round XORs them away, and the
final key is the fixed constant `key[i] = 9 XOR ((i + 9) & 0xFF)`,
independent of the password. -/
theorem derived_key_password_independent :
    ∀ p1 p2 : String, hexBypass p1 = false → hexBypass p2 = false →
      deriveAesKeyStm32 p1 = deriveAesKeyStm32 p2 ∧
      deriveAesKeyStm32 p1 = (List.range 16).map (fun i => 9 ^^^ ((i + 9) % 256)) := by
  intro p1 p2 h1 h2
  rw [derive_const_of_nonbypass p1 h1, derive_const_of_nonbypass p2 h2]
  exact ⟨rfl, rfl⟩

/-- Witness for **C4** at the concrete passwords `"alpha"` and
`"beta-password"`. -/
theorem derived_key_password_independent_witness :
    hexBypass "alpha" = false ∧ hexBypass "beta-password" = false ∧
    deriveAesKeyStm32 "alpha" = deriveAesKeyStm32 "beta-password" :=
  ⟨by decide, by decide,
    (derived_key_password_independent "alpha" "beta-password"
      (by decide) (by decide)).1⟩



theorem crc32_table_lt_aux :
    (List.range 256).all (fun n => crc32_table.getD n 0 < 2 ^ 32) = true := by decide

theorem crc32_table_lt (x : Nat) : crc32_table.getD x 0 < 2 ^ 32 := by
  by_cases h : x < 256
  · have h2 := List.all_eq_true.mp crc32_table_lt_aux x (List.mem_range.mpr h)
    exact of_decide_eq_true h2
  · rw [List.getD_eq_default]
    · norm_num
    · have : crc32_table.length = 256 := by decide
      omega

theorem crcByteStep_lt (crc b : Nat) (h : crc < 2 ^ 32) : crcByteStep crc b < 2 ^ 32 := by
  unfold crcByteStep
  apply Nat.xor_lt_two_pow (crc32_table_lt _)
  calc crc >>> 8 = crc / 2 ^ 8 := Nat.shiftRight_eq_div_pow crc 8
  _ ≤ crc := Nat.div_le_self _ _
  _ < 2 ^ 32 := h

theorem crc_foldl_lt : ∀ (l : List Nat) (crc : Nat), crc < 2 ^ 32 →
    l.foldl crcByteStep crc < 2 ^ 32
  | [], _, h => h
  | b :: rest, crc, h => crc_foldl_lt rest _ (crcByteStep_lt crc b h)

theorem calculateCrc32Stm32_lt (data : List Nat) : calculateCrc32Stm32 data < 2 ^ 32 := by
  unfold calculateCrc32Stm32
  exact Nat.xor_lt_two_pow (crc_foldl_lt data _ (by norm_num)) (by norm_num)

theorem pkcs7Pad_length (data : List Nat) :
    (pkcs7Pad data).length = data.length + (16 - data.length % 16) := by
  simp [pkcs7Pad]

theorem toBlocksFuel_flatten : ∀ (fuel : Nat) (data : List Nat), data.length ≤ fuel →
    (toBlocksFuel fuel data).flatten = data := by
  intro fuel
  induction fuel with
  | zero =>
      intro data h
      have : data = [] := List.eq_nil_of_length_eq_zero (Nat.le_zero.mp h)
      simp [this, toBlocksFuel]
  | succ n ih =>
      intro data h
      unfold toBlocksFuel
      by_cases hd : data = []
      · simp [hd]
      · have hpos : 0 < data.length := List.length_pos.mpr hd
        simp only [hd, if_false]
        rw [List.flatten_cons, ih (data.drop 16) (by simp [List.length_drop]; omega)]
        exact List.take_append_drop 16 data

theorem toBlocksFuel_blocks16 : ∀ (fuel : Nat) (data : List Nat), data.length ≤ fuel →
    data.length % 16 = 0 → ∀ b ∈ toBlocksFuel fuel data, b.length = 16 := by
  intro fuel
  induction fuel with
  | zero => intro data _ _ b hb; simp [toBlocksFuel] at hb
  | succ n ih =>
      intro data h hmod b hb
      unfold toBlocksFuel at hb
      by_cases hd : data = []
      · simp [hd] at hb
      · have hpos : 0 < data.length := List.length_pos.mpr hd
        have h16 : 16 ≤ data.length := by omega
        simp only [hd, if_false, List.mem_cons] at hb
        rcases hb with hb | hb
        · rw [hb, List.length_take]; omega
        · exact ih (data.drop 16) (by simp [List.length_drop]; omega)
            (by simp [List.length_drop]; omega) b hb

theorem cbc_flatten_length (enc : List Nat → List Nat)
    (henc : ∀ b : List Nat, b.length = 16 → (enc b).length = 16) :
    ∀ (bs : List (List Nat)) (prev : List Nat), (∀ b ∈ bs, b.length = 16) →
      prev.length = 16 →
      ((cbcEncryptBlocks enc prev bs).flatten).length = (bs.flatten).length := by
  intro bs
  induction bs with
  | nil => intro prev _ _; rfl
  | cons b rest ih =>
      intro prev hall hprev
      have hb : b.length = 16 := hall b (List.mem_cons_self b rest)
      have hc : (enc (List.zipWith (fun x y => x ^^^ y) b prev)).length = 16 := by
        apply henc
        simp [List.length_zipWith, hb, hprev]
      unfold cbcEncryptBlocks
      simp only [List.flatten_cons, List.length_append, hc, hb]
      rw [ih _ (fun x hx => hall x (List.mem_cons_of_mem b hx)) hc]

theorem aes_cipher_length (aesBlock : List Nat → List Nat → List Nat)
    (key iv data : List Nat) (hiv : iv.length = 16)
    (hblk : ∀ b : List Nat, b.length = 16 → (aesBlock key b).length = 16) :
    ((cbcEncryptBlocks (aesBlock key) iv (toBlocks (pkcs7Pad data))).flatten).length
      = data.length + (16 - data.length % 16) := by
  unfold toBlocks
  rw [cbc_flatten_length (aesBlock key) hblk _ _
      (toBlocksFuel_blocks16 _ _ (Nat.le_refl _) (by rw [pkcs7Pad_length]; omega)) hiv]
  rw [toBlocksFuel_flatten _ _ (Nat.le_refl _), pkcs7Pad_length]

theorem parseFirmwareVersion_length (v : Option String) :
    (parseFirmwareVersion v).length = 4 := by
  unfold parseFirmwareVersion
  rcases v with _ | v
  · rfl
  · by_cases hv : v = ""
    · simp [hv]
    · simp only [hv, if_false]
      rcases hm : (splitDots (stripV v)).mapM pyInt? with _ | parts
      · rfl
      · simp [List.length_take, List.length_append, List.length_replicate]
        omega

theorem pack32?_eq (n : Nat) (h : n < 2 ^ 32) : pack32? n = some (le32 n) := by
  simp [pack32?, le32]
  exact h

theorem pack16?_eq (n : Int) (h0 : 0 ≤ n) (h1 : n < 65536) : pack16? n = some (le16 n) := by
  simp [pack16?, le16, h0, h1]


theorem parseFirmwareVersion_getD_mem (ver : Option String) (i : Nat) (hi : i < 4) :
    (parseFirmwareVersion ver).getD i 0 ∈ parseFirmwareVersion ver := by
  have hp := parseFirmwareVersion_length ver
  have hilt : i < (parseFirmwareVersion ver).length := by omega
  rw [List.getD_eq_getElem?_getD, List.getElem?_eq_getElem hilt]
  simp only [Option.getD_some]
  exact List.getElem_mem hilt

/-- **C1** (amended). For AES-128-CBC, `_aes_encrypt_stm32_format` returns
`header ++ ciphertext` with the 64-byte little-endian header
`magic 0x41455331, header_version 1, firmware_size = len(P),
encrypted_size = len(ciphertext), crc32_plain, crc32_cipher, iv,
key_hash = MD5(K), fw_version (four uint16)`, and metadata carrying
`firmware_size`, `encrypted_size`, `header_size = 64` and the IV hex —
provided each parsed version component fits in a uint16 and the data
fits a uint32 length; outside those ranges the code raises instead
(see the counterexample). -/
theorem aes128_stm32_header_layout
    (aesBlock : List Nat → List Nat → List Nat) (md5 : List Nat → List Nat)
    (iv data key : List Nat) (ver : Option String)
    (hiv : iv.length = 16) (hmd5 : (md5 key).length = 16)
    (hblk : ∀ b : List Nat, b.length = 16 → (aesBlock key b).length = 16)
    (hlen : data.length + 16 < 2 ^ 32)
    (hver : ∀ x ∈ parseFirmwareVersion ver, 0 ≤ x ∧ x < 65536) :
    ∃ cipher header : List Nat,
      cipher = (cbcEncryptBlocks (aesBlock key) iv (toBlocks (pkcs7Pad data))).flatten ∧
      header = le32 0x41455331 ++ le32 1 ++ le32 data.length ++ le32 cipher.length ++
        le32 (calculateCrc32Stm32 data) ++ le32 (calculateCrc32Stm32 cipher) ++
        iv ++ md5 key ++
        le16 ((parseFirmwareVersion ver).getD 0 0) ++
        le16 ((parseFirmwareVersion ver).getD 1 0) ++
        le16 ((parseFirmwareVersion ver).getD 2 0) ++
        le16 ((parseFirmwareVersion ver).getD 3 0) ∧
      header.length = 64 ∧
      aesEncryptStm32Format aesBlock md5 iv data key ver =
        some (header ++ cipher,
          { algorithm := "aes-128-cbc"
            key_length := key.length
            iv := bytesToHex iv
            block_size := 16
            firmware_size := data.length
            encrypted_size := cipher.length
            header_size := 64 }) := by
  refine ⟨_, _, rfl, rfl, ?_, ?_⟩
  · simp [le32, le16, List.length_append, hiv, hmd5]
  · have hcl : ((cbcEncryptBlocks (aesBlock key) iv (toBlocks (pkcs7Pad data))).flatten).length
        < 2 ^ 32 := by
      rw [aes_cipher_length aesBlock key iv data hiv hblk]
      omega
    have h2 := pack32?_eq data.length (by omega)
    have h3 := pack32?_eq _ hcl
    have h4 := pack32?_eq _ (calculateCrc32Stm32_lt data)
    have h5 := pack32?_eq _ (calculateCrc32Stm32_lt
      ((cbcEncryptBlocks (aesBlock key) iv (toBlocks (pkcs7Pad data))).flatten))
    have hv0 := pack16?_eq _ (hver _ (parseFirmwareVersion_getD_mem ver 0 (by norm_num))).1
      (hver _ (parseFirmwareVersion_getD_mem ver 0 (by norm_num))).2
    have hv1 := pack16?_eq _ (hver _ (parseFirmwareVersion_getD_mem ver 1 (by norm_num))).1
      (hver _ (parseFirmwareVersion_getD_mem ver 1 (by norm_num))).2
    have hv2 := pack16?_eq _ (hver _ (parseFirmwareVersion_getD_mem ver 2 (by norm_num))).1
      (hver _ (parseFirmwareVersion_getD_mem ver 2 (by norm_num))).2
    have hv3 := pack16?_eq _ (hver _ (parseFirmwareVersion_getD_mem ver 3 (by norm_num))).1
      (hver _ (parseFirmwareVersion_getD_mem ver 3 (by norm_num))).2
    simp only [aesEncryptStm32Format, pack32?_eq 0x41455331 (by norm_num),
      pack32?_eq 0x01 (by norm_num), h2, h3, h4, h5, hv0, hv1, hv2, hv3,
      Option.bind_eq_bind, Option.some_bind]
    simp [le32, le16, List.length_append, hiv, hmd5]

/-- Witness for **C1** at a concrete 3-byte firmware, the identity block
cipher, a constant MD5 stub, a zero IV and version `v1.2.3.4`. -/
theorem aes128_stm32_header_layout_witness :
    ∃ cipher header : List Nat,
      cipher = (cbcEncryptBlocks (idBlockCipher (List.replicate 16 7)) (List.replicate 16 0)
          (toBlocks (pkcs7Pad [1, 2, 3]))).flatten ∧
      header = le32 0x41455331 ++ le32 1 ++ le32 ([1, 2, 3] : List Nat).length ++
        le32 cipher.length ++ le32 (calculateCrc32Stm32 [1, 2, 3]) ++
        le32 (calculateCrc32Stm32 cipher) ++ List.replicate 16 0 ++
        constMd5 (List.replicate 16 7) ++
        le16 ((parseFirmwareVersion (some "v1.2.3.4")).getD 0 0) ++
        le16 ((parseFirmwareVersion (some "v1.2.3.4")).getD 1 0) ++
        le16 ((parseFirmwareVersion (some "v1.2.3.4")).getD 2 0) ++
        le16 ((parseFirmwareVersion (some "v1.2.3.4")).getD 3 0) ∧
      header.length = 64 ∧
      aesEncryptStm32Format idBlockCipher constMd5 (List.replicate 16 0) [1, 2, 3]
          (List.replicate 16 7) (some "v1.2.3.4") =
        some (header ++ cipher,
          { algorithm := "aes-128-cbc"
            key_length := (List.replicate (16 : Nat) (7 : Nat)).length
            iv := bytesToHex (List.replicate 16 0)
            block_size := 16
            firmware_size := ([1, 2, 3] : List Nat).length
            encrypted_size := cipher.length
            header_size := 64 }) :=
  aes128_stm32_header_layout idBlockCipher constMd5 (List.replicate 16 0) [1, 2, 3]
    (List.replicate 16 7) (some "v1.2.3.4") (by decide) (by decide)
    (fun b hb => hb) (by decide) (by decide)

/-- Counterexample to **C1** as stated: a version string whose build
component does not fit a uint16 makes `struct.pack` raise, so encryption
returns no header at all (modelled as `none`). -/
theorem aes128_version_overflow :
    aesEncryptStm32Format idBlockCipher constMd5 (List.replicate 16 0) [0]
      (List.replicate 16 0) (some "0.0.0.65536") = none := by decide

theorem pyTupleLt_irrefl : ∀ l : List Int, pyTupleLt l l = false
  | [] => rfl
  | x :: xs => by simp [pyTupleLt, pyTupleLt_irrefl xs]

theorem pyTupleLt_trans : ∀ a b c : List Int,
    pyTupleLt a b = true → pyTupleLt b c = true → pyTupleLt a c = true := by
  intro a
  induction a with
  | nil =>
      intro b c h1 h2
      cases b with
      | nil => simp [pyTupleLt] at h1
      | cons y ys =>
          cases c with
          | nil => simp [pyTupleLt] at h2
          | cons z zs => simp [pyTupleLt]
  | cons x xs ih =>
      intro b c h1 h2
      cases b with
      | nil => simp [pyTupleLt] at h1
      | cons y ys =>
          cases c with
          | nil => simp [pyTupleLt] at h2
          | cons z zs =>
              simp only [pyTupleLt] at h1 h2 ⊢
              by_cases hxy : x < y
              · by_cases hyz : y < z
                · simp [lt_trans hxy hyz]
                · by_cases hyeqz : y = z
                  · subst hyeqz; simp [hxy]
                  · simp [hyz, hyeqz] at h2
              · by_cases hxeqy : x = y
                · subst hxeqy
                  by_cases hyz : x < z
                  · simp [hyz]
                  · by_cases hyeqz : x = z
                    · subst hyeqz
                      simp only [lt_irrefl, if_false, if_pos rfl] at h1 h2 ⊢
                      exact ih ys zs h1 h2
                    · simp [hyz, hyeqz] at h2
                · simp [hxy, hxeqy] at h1

theorem pyTupleLt_trichotomy : ∀ a b : List Int,
    pyTupleLt a b = true ∨ pyTupleLt b a = true ∨ a = b := by
  intro a
  induction a with
  | nil =>
      intro b
      cases b with
      | nil => right; right; rfl
      | cons y ys => left; simp [pyTupleLt]
  | cons x xs ih =>
      intro b
      cases b with
      | nil => right; left; simp [pyTupleLt]
      | cons y ys =>
          rcases Int.lt_trichotomy x y with hxy | hxy | hxy
          · left; simp [pyTupleLt, hxy]
          · subst hxy
            rcases ih ys with h | h | h
            · left; simp [pyTupleLt, h]
            · right; left; simp [pyTupleLt, h]
            · right; right; rw [h]
          · right; left; simp [pyTupleLt, hxy]

theorem listCharLt_irrefl : ∀ l : List Char, listCharLt l l = false
  | [] => rfl
  | x :: xs => by simp [listCharLt, listCharLt_irrefl xs]

theorem listCharLt_trans : ∀ a b c : List Char,
    listCharLt a b = true → listCharLt b c = true → listCharLt a c = true := by
  intro a
  induction a with
  | nil =>
      intro b c h1 h2
      cases b with
      | nil => simp [listCharLt] at h1
      | cons y ys =>
          cases c with
          | nil => simp [listCharLt] at h2
          | cons z zs => simp [listCharLt]
  | cons x xs ih =>
      intro b c h1 h2
      cases b with
      | nil => simp [listCharLt] at h1
      | cons y ys =>
          cases c with
          | nil => simp [listCharLt] at h2
          | cons z zs =>
              simp only [listCharLt] at h1 h2 ⊢
              by_cases hxy : x.toNat < y.toNat
              · by_cases hyz : y.toNat < z.toNat
                · simp [lt_trans hxy hyz]
                · by_cases hyeqz : y.toNat = z.toNat
                  · simp only [hyeqz] at hxy
                    simp [hxy]
                  · simp [hyz, hyeqz] at h2
              · by_cases hxeqy : x.toNat = y.toNat
                · by_cases hyz : y.toNat < z.toNat
                  · simp only [← hxeqy] at hyz
                    simp [hyz]
                  · by_cases hyeqz : y.toNat = z.toNat
                    · have hxz : ¬ x.toNat < z.toNat := by omega
                      have hxez : x.toNat = z.toNat := by omega
                      rw [if_neg hxy, if_pos hxeqy] at h1
                      rw [if_neg hyz, if_pos hyeqz] at h2
                      rw [if_neg hxz, if_pos hxez]
                      exact ih ys zs h1 h2
                    · simp [hyz, hyeqz] at h2
                · simp [hxy, hxeqy] at h1

theorem char_toNat_inj (c d : Char) (h : c.toNat = d.toNat) : c = d :=
  Char.eq_of_val_eq (UInt32.ext h)

theorem listCharLt_trichotomy : ∀ a b : List Char,
    listCharLt a b = true ∨ listCharLt b a = true ∨ a = b := by
  intro a
  induction a with
  | nil =>
      intro b
      cases b with
      | nil => right; right; rfl
      | cons y ys => left; simp [listCharLt]
  | cons x xs ih =>
      intro b
      cases b with
      | nil => right; left; simp [listCharLt]
      | cons y ys =>
          rcases Nat.lt_trichotomy x.toNat y.toNat with hxy | hxy | hxy
          · left; simp [listCharLt, hxy]
          · have hx : x = y := char_toNat_inj x y hxy
            subst hx
            rcases ih ys with h | h | h
            · left; simp [listCharLt, h]
            · right; left; simp [listCharLt, h]
            · right; right; rw [h]
          · right; left
            simp [listCharLt, hxy]


theorem strLt_irrefl (s : String) : strLt s s = false := listCharLt_irrefl _

theorem strLt_trans (s t u : String) (h1 : strLt s t = true) (h2 : strLt t u = true) :
    strLt s u = true := listCharLt_trans _ _ _ h1 h2

theorem string_toList_inj (s t : String) (h : s.toList = t.toList) : s = t := by
  cases s; cases t
  simp only [String.toList] at h
  rw [h]

theorem strLt_trichotomy (s t : String) :
    strLt s t = true ∨ strLt t s = true ∨ s = t := by
  rcases listCharLt_trichotomy s.toList t.toList with h | h | h
  · exact Or.inl h
  · exact Or.inr (Or.inl h)
  · exact Or.inr (Or.inr (string_toList_inj s t h))

theorem sortKeyLt_irrefl (k : List Int × String) : sortKeyLt k k = false := by
  simp [sortKeyLt, pyTupleLt_irrefl, strLt_irrefl]

theorem sortKeyLt_trans (a b c : List Int × String)
    (h1 : sortKeyLt a b = true) (h2 : sortKeyLt b c = true) : sortKeyLt a c = true := by
  unfold sortKeyLt at h1 h2 ⊢
  rcases Bool.or_eq_true_iff.mp h1 with ht1 | hs1
  · rcases Bool.or_eq_true_iff.mp h2 with ht2 | hs2
    · exact Bool.or_eq_true_iff.mpr
        (Or.inl (pyTupleLt_trans _ _ _ ht1 ht2))
    · obtain ⟨heq, _⟩ := Bool.and_eq_true_iff.mp hs2
      have heq' : b.1 = c.1 := beq_iff_eq.mp heq
      exact Bool.or_eq_true_iff.mpr (Or.inl (heq' ▸ ht1))
  · obtain ⟨heq1, hst1⟩ := Bool.and_eq_true_iff.mp hs1
    have heq1' : a.1 = b.1 := beq_iff_eq.mp heq1
    rcases Bool.or_eq_true_iff.mp h2 with ht2 | hs2
    · exact Bool.or_eq_true_iff.mpr (Or.inl (heq1' ▸ ht2))
    · obtain ⟨heq2, hst2⟩ := Bool.and_eq_true_iff.mp hs2
      have heq2' : b.1 = c.1 := beq_iff_eq.mp heq2
      refine Bool.or_eq_true_iff.mpr (Or.inr ?_)
      refine Bool.and_eq_true_iff.mpr ⟨beq_iff_eq.mpr (heq1'.trans heq2'), ?_⟩
      exact strLt_trans _ _ _ hst1 hst2

theorem sortKeyLt_trichotomy (a b : List Int × String) :
    sortKeyLt a b = true ∨ sortKeyLt b a = true ∨ a = b := by
  unfold sortKeyLt
  rcases pyTupleLt_trichotomy a.1 b.1 with h | h | h
  · exact Or.inl (by simp [h])
  · exact Or.inr (Or.inl (by simp [h]))
  · rcases strLt_trichotomy a.2 b.2 with hs | hs | hs
    · exact Or.inl (by simp [h, hs])
    · exact Or.inr (Or.inl (by simp [h, hs]))
    · exact Or.inr (Or.inr (Prod.ext h hs))

theorem sortKeyLt_asymm (a b : List Int × String) (h : sortKeyLt a b = true) :
    sortKeyLt b a = false := by
  by_contra hcon
  have hba : sortKeyLt b a = true := by
    cases hv : sortKeyLt b a
    · exact absurd hv hcon
    · rfl
  have := sortKeyLt_trans a b a h hba
  rw [sortKeyLt_irrefl] at this
  exact Bool.false_ne_true this

theorem listingLE_trans (a b c : FirmwareInfo)
    (h1 : listingLE a b = true) (h2 : listingLE b c = true) : listingLE a c = true := by
  unfold listingLE at h1 h2 ⊢
  rw [Bool.not_eq_true'] at h1 h2 ⊢
  by_contra hcon
  have hac : sortKeyLt (versionSortKey a) (versionSortKey c) = true := by
    cases hv : sortKeyLt (versionSortKey a) (versionSortKey c)
    · exact absurd hv hcon
    · rfl
  rcases sortKeyLt_trichotomy (versionSortKey b) (versionSortKey c) with h | h | h
  · exact Bool.false_ne_true (h2 ▸ h)
  · have := sortKeyLt_trans _ _ _ hac h
    exact Bool.false_ne_true (h1 ▸ this)
  · rw [← h] at hac
    exact Bool.false_ne_true (h1 ▸ hac)

theorem listingLE_total (a b : FirmwareInfo) : (listingLE a b || listingLE b a) = true := by
  unfold listingLE
  cases hv : sortKeyLt (versionSortKey a) (versionSortKey b)
  · simp
  · rw [sortKeyLt_asymm _ _ hv]
    simp


theorem mergeSort_pair {α : Type} {le : α → α → Bool}
    (htrans : ∀ a b c : α, le a b = true → le b c = true → le a c = true)
    (htotal : ∀ a b : α, (le a b || le b a) = true)
    (a b : α) (h : le a b = true) : [a, b].mergeSort le = [a, b] := by
  obtain ⟨l₁, l₂, h1, h2, h3⟩ := List.mergeSort_cons htrans htotal a [b]
  rw [List.mergeSort_singleton] at h2
  cases l₁ with
  | nil =>
      simp only [List.nil_append] at h1 h2
      rw [h1, ← h2]
  | cons x l₁' =>
      have hx : x = b := by
        rw [List.cons_append] at h2
        injection h2 with hb _
        exact hb.symm
      have hfalse := h3 x (List.mem_cons_self x l₁')
      simp [hx, h] at hfalse

theorem listing_perm (st : CatalogState) (tf : Option String) (ef : Option Bool) :
    (listFirmwares st tf ef).Perm (filteredFirmwares st tf ef) :=
  List.mergeSort_perm _ _

theorem listing_pairwise (st : CatalogState) (tf : Option String) (ef : Option Bool) :
    (listFirmwares st tf ef).Pairwise (fun a b => listingLE a b = true) :=
  List.sorted_mergeSort listingLE_trans listingLE_total _

theorem parses4_sort_tuple (v : String) (h : versionParsesTo4 v = true) :
    compareVersionTuple v =
      (match (splitDots (stripV v)).mapM pyInt? with
        | some parts => (parts ++ List.replicate (4 - parts.length) 0).take 4
        | none => ([0, 0, 0, 0] : List Int)) := by
  unfold versionParsesTo4 at h
  unfold compareVersionTuple
  rcases hm : (splitDots (stripV v)).mapM pyInt? with _ | parts
  · rfl
  · rw [hm] at h
    have hlen : parts.length = 4 := by simpa using h
    simp [hlen, List.take_of_length_le]

theorem compareVersions_ne_one (v1 v2 : String)
    (h : pyTupleLt (compareVersionTuple v2) (compareVersionTuple v1) = false) :
    compareVersions v1 v2 ≠ 1 := by
  intro hcon
  simp only [compareVersions] at hcon
  rw [h] at hcon
  simp only [Bool.false_eq_true, if_false] at hcon
  split at hcon <;> omega

theorem latest_fold_const (rest : List FirmwareInfo) (latest : FirmwareInfo)
    (h : ∀ fw ∈ rest, compareVersions fw.version latest.version ≠ 1) :
    rest.foldl (fun cur fw => if compareVersions fw.version cur.version = 1 then fw else cur)
      latest = latest := by
  induction rest with
  | nil => rfl
  | cons fw rest' ih =>
      simp only [List.foldl_cons]
      rw [if_neg (h fw (List.mem_cons_self fw rest'))]
      exact ih (fun x hx => h x (List.mem_cons_of_mem fw hx))

theorem versionSortKey_fst (fw : FirmwareInfo) :
    (versionSortKey fw).1 =
      (match (splitDots (stripV fw.version)).mapM pyInt? with
        | some parts => (parts ++ List.replicate (4 - parts.length) 0).take 4
        | none => ([0, 0, 0, 0] : List Int)) := by
  unfold versionSortKey
  rcases hm : (splitDots (stripV fw.version)).mapM pyInt? with _ | parts <;> simp

/-- **C5** (amended). `list_firmwares` returns a permutation of the
filtered records, pairwise ordered so that each record's
`(version 4-tuple, upload_time)` key is not below the next one's
(version descending, ties by upload time descending), and an unparseable
version gets the key `((0,0,0,0), upload_time)`.  `latest` agrees with
the head of that ordering whenever every filtered record's version
parses to exactly 4 integer components; with other component counts its
unpadded comparator can disagree (see the counterexample). -/
theorem listing_order_and_latest (st : CatalogState) (tf : Option String) (ef : Option Bool) :
    (listFirmwares st tf ef).Perm (filteredFirmwares st tf ef) ∧
    (listFirmwares st tf ef).Pairwise
      (fun a b => sortKeyLt (versionSortKey a) (versionSortKey b) = false) ∧
    (∀ fw : FirmwareInfo, (splitDots (stripV fw.version)).mapM pyInt? = none →
      versionSortKey fw = ([0, 0, 0, 0], fw.upload_time)) ∧
    ((∀ fw ∈ filteredFirmwares st tf none, versionParsesTo4 fw.version = true) →
      getLatestVersionFirmware st tf = (listFirmwares st tf none).head?) := by
  refine ⟨listing_perm st tf ef, ?_, ?_, ?_⟩
  · have hpw := listing_pairwise st tf ef
    apply List.Pairwise.imp ?_ hpw
    intro a b hab
    unfold listingLE at hab
    rwa [Bool.not_eq_true'] at hab
  · intro fw hm
    unfold versionSortKey
    rw [hm]
  · intro h4
    unfold getLatestVersionFirmware
    cases hls : listFirmwares st tf none with
    | nil => rfl
    | cons latest rest =>
        have hpw := listing_pairwise st tf none
        rw [hls] at hpw
        have hpc := (List.pairwise_cons.mp hpw).1
        have hperm := listing_perm st tf none
        rw [hls] at hperm
        have hmem : ∀ fw ∈ latest :: rest, versionParsesTo4 fw.version = true := by
          intro fw hfw
          exact h4 fw (hperm.mem_iff.mp hfw)
        have hlat4 := hmem latest (List.mem_cons_self _ _)
        have hfold : ∀ fw ∈ rest, compareVersions fw.version latest.version ≠ 1 := by
          intro fw hfw
          have hfw4 := hmem fw (List.mem_cons_of_mem _ hfw)
          have hle := hpc fw hfw
          unfold listingLE at hle
          rw [Bool.not_eq_true'] at hle
          unfold sortKeyLt at hle
          rcases Bool.or_eq_false_iff.mp hle with ⟨ht, _⟩
          apply compareVersions_ne_one
          rw [parses4_sort_tuple _ hfw4, parses4_sort_tuple _ hlat4,
            ← versionSortKey_fst, ← versionSortKey_fst]
          exact ht
        simp [latest_fold_const rest latest hfold]


/-- Witness for **C5** on the concrete catalog `stThree`
(versions `1.0.0.0`, `1.2.0.0`, `1.1.9.9`). -/
theorem listing_order_and_latest_witness :
    (∀ fw ∈ filteredFirmwares stThree none none, versionParsesTo4 fw.version = true) ∧
    getLatestVersionFirmware stThree none = (listFirmwares stThree none none).head? :=
  ⟨by decide, (listing_order_and_latest stThree none none).2.2.2 (by decide)⟩

/-- Counterexample to **C5** as stated: with versions `"1.2"` (uploaded
later) and `"1.2.0.0"` (uploaded earlier) the listing's maximum is the
`"1.2"` record, but `get_latest_version_firmware` returns the
`"1.2.0.0"` record, because its comparator does not pad tuples. -/
theorem latest_not_listing_max :
    getLatestVersionFirmware stTwoFour none = some fwFourPart ∧
    (listFirmwares stTwoFour none none).head? = some fwTwoPart ∧
    fwFourPart ≠ fwTwoPart := by
  have hle : listingLE fwTwoPart fwFourPart = true := by decide
  have hms : [fwTwoPart, fwFourPart].mergeSort listingLE = [fwTwoPart, fwFourPart] :=
    mergeSort_pair listingLE_trans listingLE_total _ _ hle
  have hfilt : filteredFirmwares stTwoFour none none = [fwTwoPart, fwFourPart] := by decide
  have hlist : listFirmwares stTwoFour none none = [fwTwoPart, fwFourPart] := by
    unfold listFirmwares
    rw [hfilt, hms]
  refine ⟨?_, by rw [hlist]; rfl, by decide⟩
  unfold getLatestVersionFirmware
  rw [hlist]
  simp only [List.foldl_cons, List.foldl_nil]
  rw [if_pos (by decide)]



/-! ## Encrypt-in-place: no-op and failure frame -/

/-- **C6** (amended). `encrypt_firmware` on a record already flagged
encrypted returns `true` and changes nothing — record fields, backing
files and every other record are untouched — provided the backing file
exists and its content is non-empty (the code reads the file before the
flag check and maps a missing or empty read to `false`; see the
counterexample). -/
theorem encrypt_already_encrypted_noop
    (cipher : List Nat → Option (List Nat × List (String × String)))
    (writeF : String → List Nat → WriteOutcome)
    (chk : List Nat → String)
    (st : CatalogState) (fid alg : String) (pw : Option String) (key : Option (List Nat))
    (fw : FirmwareInfo) (content : List Nat)
    (hfw : dictGet st.firmwares fid = some fw)
    (henc : fw.is_encrypted = true)
    (hfile : dictGet st.files fw.filename = some content)
    (hne : content ≠ []) :
    encryptFirmwareOp cipher writeF chk st fid alg pw key = (true, st) := by
  simp [encryptFirmwareOp, hfw, hfile, hne, henc]

/-- Witness for **C6** on the already-encrypted record of `stEncOk`. -/
theorem encrypt_already_encrypted_noop_witness :
    encryptFirmwareOp (fun _ => none) okWrite constChk stEncOk "e1" "xor" none none
      = (true, stEncOk) :=
  encrypt_already_encrypted_noop (fun _ => none) okWrite constChk stEncOk "e1" "xor"
    none none fwEnc [1, 2, 3, 4] (by decide) (by decide) (by decide) (by decide)

/-- Counterexample to **C6** as stated: an already-encrypted record whose
backing file is missing makes `encrypt_firmware` return `false`, not
`true` (the content read precedes the already-encrypted check). -/
theorem encrypt_already_encrypted_missing_file :
    fwEnc.is_encrypted = true ∧
    encryptFirmwareOp (fun _ => none) okWrite constChk stEncMissingFile "e1" "xor"
      none none = (false, stEncMissingFile) :=
  ⟨by decide, by decide⟩

theorem encryptFirmwareOp_firmwares_frame
    (cipher : List Nat → Option (List Nat × List (String × String)))
    (writeF : String → List Nat → WriteOutcome)
    (chk : List Nat → String)
    (st : CatalogState) (fid alg : String) (pw : Option String) (key : Option (List Nat)) :
    (encryptFirmwareOp cipher writeF chk st fid alg pw key).1 = false →
    (encryptFirmwareOp cipher writeF chk st fid alg pw key).2.firmwares = st.firmwares := by
  unfold encryptFirmwareOp
  repeat' split
  all_goals simp

/-- **C7** (amended). A failure of `encrypt_firmware` raised before the
file write — unknown id, missing backing file, empty content, cipher
error, or an `open` of the backing file that itself raises — returns
`false` with the catalog records and the file store exactly as they
were.  A write that raises after `open(file_path, 'wb')` has truncated
the file also returns `false` with the records unchanged, but the
backing file is left holding only the prefix of the ciphertext written
so far (see the counterexample).  In every call returning `false` the
records map is unchanged. -/
theorem encrypt_failure_leaves_state
    (cipher : List Nat → Option (List Nat × List (String × String)))
    (writeF : String → List Nat → WriteOutcome)
    (chk : List Nat → String)
    (st : CatalogState) (fid alg : String) (pw : Option String) (key : Option (List Nat)) :
    (dictGet st.firmwares fid = none →
      encryptFirmwareOp cipher writeF chk st fid alg pw key = (false, st)) ∧
    (∀ fw : FirmwareInfo, dictGet st.firmwares fid = some fw →
      dictGet st.files fw.filename = none →
      encryptFirmwareOp cipher writeF chk st fid alg pw key = (false, st)) ∧
    (∀ fw : FirmwareInfo, dictGet st.firmwares fid = some fw →
      dictGet st.files fw.filename = some [] →
      encryptFirmwareOp cipher writeF chk st fid alg pw key = (false, st)) ∧
    (∀ (fw : FirmwareInfo) (content : List Nat), dictGet st.firmwares fid = some fw →
      dictGet st.files fw.filename = some content → content ≠ [] →
      fw.is_encrypted = false → cipher content = none →
      encryptFirmwareOp cipher writeF chk st fid alg pw key = (false, st)) ∧
    (∀ (fw : FirmwareInfo) (content enc : List Nat) (md : List (String × String)),
      dictGet st.firmwares fid = some fw →
      dictGet st.files fw.filename = some content → content ≠ [] →
      fw.is_encrypted = false → cipher content = some (enc, md) →
      writeF fw.filename enc = WriteOutcome.openFailed →
      encryptFirmwareOp cipher writeF chk st fid alg pw key = (false, st)) ∧
    (∀ (fw : FirmwareInfo) (content enc : List Nat) (md : List (String × String)) (k : Nat),
      dictGet st.firmwares fid = some fw →
      dictGet st.files fw.filename = some content → content ≠ [] →
      fw.is_encrypted = false → cipher content = some (enc, md) →
      writeF fw.filename enc = WriteOutcome.failedAfter k →
      encryptFirmwareOp cipher writeF chk st fid alg pw key =
        (false, { st with files := dictSet st.files fw.filename (enc.take k) })) ∧
    ((encryptFirmwareOp cipher writeF chk st fid alg pw key).1 = false →
      (encryptFirmwareOp cipher writeF chk st fid alg pw key).2.firmwares = st.firmwares) := by
  refine ⟨?_, ?_, ?_, ?_, ?_, ?_, ?_⟩
  · intro hfw
    simp [encryptFirmwareOp, hfw]
  · intro fw hfw hfile
    simp [encryptFirmwareOp, hfw, hfile]
  · intro fw hfw hfile
    simp [encryptFirmwareOp, hfw, hfile]
  · intro fw content hfw hfile hne henc hciph
    simp [encryptFirmwareOp, hfw, hfile, hne, henc, hciph]
  · intro fw content enc md hfw hfile hne henc hciph hw
    simp [encryptFirmwareOp, hfw, hfile, hne, henc, hciph, hw]
  · intro fw content enc md k hfw hfile hne henc hciph hw
    simp [encryptFirmwareOp, hfw, hfile, hne, henc, hciph, hw]
  · exact encryptFirmwareOp_firmwares_frame cipher writeF chk st fid alg pw key

/-- Witness for **C7**: on the concrete catalog `stPlain`, an unknown id
fails leaving the state untouched, and a write raising right after the
truncating `open` fails leaving the records untouched and the backing
file truncated to the written prefix (here empty). -/
theorem encrypt_failure_leaves_state_witness :
    (encryptFirmwareOp (fun _ => none) okWrite constChk stPlain "no-such-id" "xor"
      none none = (false, stPlain)) ∧
    (encryptFirmwareOp (fun c => some (c, [])) failWrite0 constChk stPlain "p1" "xor"
      none none =
      (false, { stPlain with files := dictSet stPlain.files "p1.bin" [] })) :=
  ⟨(encrypt_failure_leaves_state (fun _ => none) okWrite constChk stPlain
      "no-such-id" "xor" none none).1 (by decide),
    (encrypt_failure_leaves_state (fun c => some (c, [])) failWrite0 constChk stPlain
      "p1" "xor" none none).2.2.2.2.2.1 fwPlain [1, 2, 3, 4] [1, 2, 3, 4] [] 0
      (by decide) (by decide) (by decide) (by decide) (by decide) (by decide)⟩

/-- Counterexample to **C7** as stated: the source opens the backing
file with mode `'wb'` — truncating it — before writing, so a write that
raises immediately afterwards returns `false` with the backing file
emptied, not as it was before the call. -/
theorem encrypt_write_failure_truncates :
    (encryptFirmwareOp (fun c => some (c, [])) failWrite0 constChk stPlain "p1" "xor"
      none none).1 = false ∧
    dictGet stPlain.files "p1.bin" = some [1, 2, 3, 4] ∧
    dictGet (encryptFirmwareOp (fun c => some (c, [])) failWrite0 constChk stPlain
      "p1" "xor" none none).2.files "p1.bin" = some [] :=
  ⟨by decide, by decide, by decide⟩



theorem digitChar_isDigit : ∀ k < 10, (Nat.digitChar k).isDigit = true := by decide

theorem toDigitsCore_digits :
    ∀ (fuel n : Nat) (ds : List Char), (∀ c ∈ ds, c.isDigit = true) →
      ∀ c ∈ Nat.toDigitsCore 10 fuel n ds, c.isDigit = true := by
  intro fuel
  induction fuel with
  | zero => intro n ds hds c hc; exact hds c hc
  | succ f ih =>
      intro n ds hds c hc
      unfold Nat.toDigitsCore at hc
      by_cases hz : n / 10 = 0
      · rw [if_pos hz] at hc
        rcases List.mem_cons.mp hc with h | h
        · rw [h]; exact digitChar_isDigit _ (Nat.mod_lt _ (by norm_num))
        · exact hds c h
      · rw [if_neg hz] at hc
        refine ih (n / 10) _ ?_ c hc
        intro c' hc'
        rcases List.mem_cons.mp hc' with h | h
        · rw [h]; exact digitChar_isDigit _ (Nat.mod_lt _ (by norm_num))
        · exact hds c' h

theorem toDigitsCore_ne_nil :
    ∀ (fuel n : Nat) (ds : List Char), ds ≠ [] → Nat.toDigitsCore 10 fuel n ds ≠ [] := by
  intro fuel
  induction fuel with
  | zero => intro n ds h; exact h
  | succ f ih =>
      intro n ds h
      unfold Nat.toDigitsCore
      by_cases hz : n / 10 = 0
      · rw [if_pos hz]; simp
      · rw [if_neg hz]
        exact ih (n / 10) _ (by simp)

theorem toDigitsCore_ne_nil' (f n : Nat) (ds : List Char) :
    Nat.toDigitsCore 10 (f + 1) n ds ≠ [] := by
  unfold Nat.toDigitsCore
  by_cases hz : n / 10 = 0
  · rw [if_pos hz]; simp
  · rw [if_neg hz]
    exact toDigitsCore_ne_nil f (n / 10) _ (by simp)

theorem natToString_good (n : Nat) : goodPart (toString n).toList := by
  have hrepr : (toString n).toList = Nat.toDigitsCore 10 (n + 1) n [] := rfl
  constructor
  · rw [hrepr]
    exact toDigitsCore_ne_nil' n n []
  · intro c hc
    rw [hrepr] at hc
    exact toDigitsCore_digits (n + 1) n [] (by simp) c hc

theorem pyInt?_digits_isSome (s : String) (h : goodPart s.toList) : (pyInt? s).isSome = true := by
  obtain ⟨hne, hd⟩ := h
  unfold pyInt?
  cases hts : s.toList with
  | nil => exact absurd hts hne
  | cons c rest =>
      rw [hts] at hd
      have hc : c.isDigit = true := hd c (List.mem_cons_self c rest)
      have hcm : ¬ (c = '-') := by intro he; rw [he] at hc; exact absurd hc (by decide)
      have hcp : ¬ (c = '+') := by intro he; rw [he] at hc; exact absurd hc (by decide)
      simp only [hcm, hcp, if_false]
      unfold pyIntDigits?
      rw [if_neg ?hcond]
      · simp
      case hcond =>
        push_neg
        refine ⟨by simp, ?_⟩
        simp only [List.all_eq_true]
        intro c' hc'
        exact hd c' hc'


theorem string_mk_toList (s : String) : String.mk s.toList = s := rfl

theorem splitDotsAux_no_dot : ∀ (xs acc : List Char), (∀ c ∈ xs, c ≠ '.') →
    splitDotsAux acc xs = [String.mk (acc.reverse ++ xs)] := by
  intro xs
  induction xs with
  | nil => intro acc _; simp [splitDotsAux]
  | cons c rest ih =>
      intro acc h
      have hc : c ≠ '.' := h c (List.mem_cons_self c rest)
      unfold splitDotsAux
      rw [if_neg hc, ih (c :: acc) (fun x hx => h x (List.mem_cons_of_mem c hx))]
      simp

theorem splitDotsAux_dot_split : ∀ (xs acc ys : List Char), (∀ c ∈ xs, c ≠ '.') →
    splitDotsAux acc (xs ++ '.' :: ys)
      = String.mk (acc.reverse ++ xs) :: splitDotsAux [] ys := by
  intro xs
  induction xs with
  | nil =>
      intro acc ys _
      simp only [List.nil_append]
      unfold splitDotsAux
      rw [if_pos rfl]
      simp
      cases ys <;> rfl
  | cons c rest ih =>
      intro acc ys h
      have hc : c ≠ '.' := h c (List.mem_cons_self c rest)
      simp only [List.cons_append]
      unfold splitDotsAux
      rw [if_neg hc, ih (c :: acc) ys (fun x hx => h x (List.mem_cons_of_mem c hx))]
      simp
      cases ys <;> rfl

theorem splitDotsAux_parts : ∀ (parts : List (List Char)) (first : List Char),
    (∀ c ∈ first, c ≠ '.') → (∀ p ∈ parts, ∀ c ∈ p, c ≠ '.') →
    splitDotsAux [] (first ++ (parts.map (fun p => '.' :: p)).flatten)
      = String.mk first :: parts.map (fun p => String.mk p) := by
  intro parts
  induction parts with
  | nil =>
      intro first hf _
      simp only [List.map_nil, List.flatten_nil, List.append_nil]
      rw [splitDotsAux_no_dot first [] hf]
      simp
  | cons p rest ih =>
      intro first hf hp
      have : first ++ ((p :: rest).map (fun q => '.' :: q)).flatten
          = first ++ '.' :: (p ++ (rest.map (fun q => '.' :: q)).flatten) := by
        simp
      rw [this, splitDotsAux_dot_split first [] _ hf]
      have hrest : splitDotsAux [] (p ++ (rest.map (fun q => '.' :: q)).flatten)
          = String.mk p :: rest.map (fun q => String.mk q) := by
        have := ih p (hp p (List.mem_cons_self p rest))
          (fun q hq => hp q (List.mem_cons_of_mem p hq))
        simpa using this
      rw [hrest]
      simp

theorem joinDots_toList : ∀ (rest : List String) (p : String),
    (joinDots (p :: rest)).toList
      = p.toList ++ ((rest.map (fun q => '.' :: q.toList)).flatten) := by
  intro rest
  induction rest with
  | nil => intro p; simp [joinDots]
  | cons q rest' ih =>
      intro p
      have h1 : joinDots (p :: q :: rest') = joinDots ((p ++ "." ++ q) :: rest') := by
        simp [joinDots, List.foldl_cons]
      rw [h1, ih (p ++ "." ++ q)]
      have : (p ++ "." ++ q).toList = p.toList ++ '.' :: q.toList := by
        simp [String.toList]
      rw [this]
      simp

theorem splitDots_joinDots (ps : List String) (hne : ps ≠ [])
    (h : ∀ p ∈ ps, ∀ c ∈ p.toList, c ≠ '.') : splitDots (joinDots ps) = ps := by
  cases ps with
  | nil => exact absurd rfl hne
  | cons p rest =>
      unfold splitDots
      rw [joinDots_toList rest p]
      have := splitDotsAux_parts (rest.map (fun q => q.toList)) p.toList
        (h p (List.mem_cons_self p rest)) ?hp
      · rw [show (rest.map (fun q => q.toList)).map (fun p => '.' :: p)
            = rest.map (fun q => '.' :: q.toList) from by simp] at this
        rw [this, string_mk_toList]
        congr 1
        rw [List.map_map]
        have : (fun p => String.mk p) ∘ (fun q => String.toList q) = id := by
          funext q
          exact string_mk_toList q
        rw [this, List.map_id]
      case hp =>
        intro q hq c hc
        rw [List.mem_map] at hq
        obtain ⟨q', hq', rfl⟩ := hq
        exact h q' (List.mem_cons_of_mem p hq') c hc


theorem isDigit_ne_dot (c : Char) (h : c.isDigit = true) : c ≠ '.' := by
  intro he
  rw [he] at h
  exact absurd h (by decide)

theorem takeWhile_all_digits (cs : List Char) :
    ∀ c ∈ cs.takeWhile Char.isDigit, c.isDigit = true := by
  intro c hc
  exact List.mem_takeWhile_imp hc

theorem afterDot_some (cs rest : List Char) (h : afterDot cs = some rest) :
    cs = '.' :: rest := by
  cases cs with
  | nil => exact absurd h (by simp [afterDot])
  | cons c rest' =>
      simp only [afterDot] at h
      by_cases hc : c = '.'
      · rw [if_pos hc] at h
        injection h with h2
        rw [hc, h2]
      · rw [if_neg hc] at h
        exact absurd h (by simp)

theorem matchDotted_shape : ∀ (k : Nat) (cs g : List Char), matchDotted k cs = some g →
    ∃ (first : List Char) (parts : List (List Char)),
      g = first ++ (parts.map (fun p => '.' :: p)).flatten ∧
      goodPart first ∧ (∀ p ∈ parts, goodPart p) ∧ parts.length + 1 = k := by
  intro k
  induction k with
  | zero => intro cs g h; exact absurd h (by simp [matchDotted])
  | succ k' ih =>
      intro cs g h
      cases k' with
      | zero =>
          unfold matchDotted at h
          by_cases hr : cs.takeWhile Char.isDigit = []
          · rw [if_pos hr] at h
            exact absurd h (by simp)
          · rw [if_neg hr] at h
            injection h with h2
            exact ⟨g, [], by simp, ⟨h2 ▸ hr, h2 ▸ takeWhile_all_digits cs⟩, by simp, rfl⟩
      | succ k'' =>
          unfold matchDotted at h
          by_cases hr : cs.takeWhile Char.isDigit = []
          · rw [if_pos hr] at h
            exact absurd h (by simp)
          · rw [if_neg hr] at h
            cases had : afterDot (cs.drop (cs.takeWhile Char.isDigit).length) with
            | none =>
                simp only [had] at h
                exact absurd h (by simp)
            | some rest =>
                simp only [had] at h
                cases hmd : matchDotted (k'' + 1) rest with
                | none =>
                    simp only [hmd] at h
                    exact absurd h (by simp)
                | some tail =>
                    simp only [hmd] at h
                    injection h with h2
                    obtain ⟨first, parts, htail, hfirst, hparts, hlen⟩ := ih rest tail hmd
                    refine ⟨cs.takeWhile Char.isDigit, first :: parts, ?_, ?_, ?_, ?_⟩
                    · rw [← h2, htail]
                      simp
                    · exact ⟨hr, takeWhile_all_digits cs⟩
                    · intro p hp
                      rcases List.mem_cons.mp hp with hp | hp
                      · exact hp ▸ hfirst
                      · exact hparts p hp
                    · simp [← hlen]
  
theorem searchDotted_shape : ∀ (cs : List Char) (k : Nat) (s : String),
    searchDotted k cs = some s →
    ∃ g : List Char, s = String.mk g ∧
      ∃ (first : List Char) (parts : List (List Char)),
        g = first ++ (parts.map (fun p => '.' :: p)).flatten ∧
        goodPart first ∧ (∀ p ∈ parts, goodPart p) ∧ parts.length + 1 = k := by
  intro cs
  induction cs with
  | nil => intro k s h; exact absurd h (by simp [searchDotted])
  | cons c rest ih =>
      intro k s h
      unfold searchDotted at h
      rcases hh : (if c.isDigit = true then matchDotted k (c :: rest)
          else if c = 'v' ∨ c = 'V' then matchDotted k rest else none) with _ | g
      · rw [hh] at h
        exact ih k s h
      · rw [hh] at h
        simp only [] at h
        injection h with h2
        refine ⟨g, h2.symm, ?_⟩
        by_cases hd : c.isDigit = true
        · rw [if_pos hd] at hh
          exact matchDotted_shape k (c :: rest) g hh
        · rw [if_neg hd] at hh
          by_cases hv : c = 'v' ∨ c = 'V'
          · rw [if_pos hv] at hh
            exact matchDotted_shape k rest g hh
          · rw [if_neg hv] at hh
            exact absurd hh (by simp)


theorem searchDotted_splitDots (k : Nat) (cs : List Char) (s : String)
    (h : searchDotted k cs = some s) :
    (splitDots s).length = k ∧ ∀ p ∈ splitDots s, goodPart p.toList := by
  obtain ⟨g, rfl, first, parts, hg, hfirst, hparts, hlen⟩ := searchDotted_shape cs k s h
  have htl : (String.mk g).toList = g := rfl
  unfold splitDots
  rw [htl, hg, splitDotsAux_parts parts first
    (fun c hc => isDigit_ne_dot c (hfirst.2 c hc))
    (fun p hp c hc => isDigit_ne_dot c ((hparts p hp).2 c hc))]
  constructor
  · simp [← hlen]
  · intro p hp
    rcases List.mem_cons.mp hp with hp | hp
    · rw [hp]
      exact hfirst
    · rw [List.mem_map] at hp
      obtain ⟨q, hq, rfl⟩ := hp
      exact hparts q hq

theorem padVersionPartsFuel_good : ∀ (fuel time : Nat) (ps : List String),
    (∀ p ∈ ps, goodPart p.toList) → ps.length ≤ 4 → 4 ≤ ps.length + fuel →
    (padVersionPartsFuel fuel time ps).length = 4 ∧
    ∀ p ∈ padVersionPartsFuel fuel time ps, goodPart p.toList := by
  intro fuel
  induction fuel with
  | zero =>
      intro time ps hg h4 hf
      have hl : ps.length = 4 := by omega
      exact ⟨hl, hg⟩
  | succ f ih =>
      intro time ps hg h4 hf
      unfold padVersionPartsFuel
      by_cases hlt : ps.length < 4
      · rw [if_pos hlt]
        by_cases h3 : ps.length = 3
        · rw [if_pos h3]
          apply ih
          · intro p hp
            rcases List.mem_append.mp hp with hp | hp
            · exact hg p hp
            · rw [List.mem_singleton.mp hp]
              exact natToString_good _
          · simp; omega
          · simp; omega
        · rw [if_neg h3]
          apply ih
          · intro p hp
            rcases List.mem_append.mp hp with hp | hp
            · exact hg p hp
            · rw [List.mem_singleton.mp hp]
              exact ⟨by decide, by decide⟩
          · simp; omega
          · simp; omega
      · rw [if_neg hlt]
        exact ⟨by omega, hg⟩

theorem normalize_good (time : Nat) (v : String) (k : Nat)
    (hk4 : k ≤ 4) (hk1 : 1 ≤ k)
    (hlen : (splitDots v).length = k) (hgood : ∀ p ∈ splitDots v, goodPart p.toList) :
    hasFourIntComponents (normalizeVersion time v) = true := by
  unfold normalizeVersion padVersionParts
  obtain ⟨hl4, hg4⟩ := padVersionPartsFuel_good 4 time (splitDots v) hgood (by omega) (by omega)
  rw [List.take_of_length_le (by omega)]
  unfold hasFourIntComponents
  rw [splitDots_joinDots _ (by intro hc; rw [hc] at hl4; simp at hl4)
    (fun p hp c hc => isDigit_ne_dot c ((hg4 p hp).2 c hc))]
  simp only [hl4, List.all_eq_true, Bool.and_eq_true, beq_iff_eq]
  refine ⟨trivial, ?_⟩
  intro p hp
  exact pyInt?_digits_isSome p (hg4 p hp)

theorem searchEightDigits_shape : ∀ (cs : List Char) (s : String),
    searchEightDigits cs = some s → goodPart s.toList := by
  intro cs
  induction cs with
  | nil => intro s h; exact absurd h (by simp [searchEightDigits])
  | cons c rest ih =>
      intro s h
      unfold searchEightDigits at h
      by_cases hcond : ((c :: rest).take 8).length = 8 ∧ ((c :: rest).take 8).all Char.isDigit
      · rw [if_pos hcond] at h
        injection h with h2
        rw [← h2]
        constructor
        · intro hnil
          have : (String.mk ((c :: rest).take 8)).toList = (c :: rest).take 8 := rfl
          rw [this] at hnil
          rw [hnil] at hcond
          simp at hcond
        · intro ch hch
          have : (String.mk ((c :: rest).take 8)).toList = (c :: rest).take 8 := rfl
          rw [this] at hch
          exact List.all_eq_true.mp hcond.2 ch hch
      · rw [if_neg hcond] at h
        exact ih s h

theorem orElse_some {α : Type} (a b : Option α) (x : α) (h : (a <|> b) = some x) :
    a = some x ∨ b = some x := by
  cases a with
  | none => right; simpa using h
  | some y => left; simpa using h


theorem extract_version_four_components (time : Nat) (f : String) :
    hasFourIntComponents (extractVersionFromFilename time f) = true := by
  have hdef : extractVersionFromFilename time f
      = (match (searchDotted 4 f.toList <|> searchDotted 3 f.toList
          <|> searchDotted 2 f.toList <|> searchDotted 1 f.toList : Option String) with
        | some version => normalizeVersion time version
        | none =>
            match searchEightDigits f.toList with
            | some ts => "1.0.0." ++ ts
            | none => "1.0.0.0") := rfl
  rw [hdef]
  cases hs : (searchDotted 4 f.toList <|> searchDotted 3 f.toList
      <|> searchDotted 2 f.toList <|> searchDotted 1 f.toList) with
  | none =>
      cases h8 : searchEightDigits f.toList with
      | none =>
          show hasFourIntComponents "1.0.0.0" = true
          decide
      | some ts =>
          show hasFourIntComponents ("1.0.0." ++ ts) = true
          obtain ⟨hne, hdig⟩ := searchEightDigits_shape f.toList ts h8
          have h1 : ("1.0.0." ++ ts).toList = '1' :: '.' :: '0' :: '.' :: '0' :: '.' :: ts.toList := by
            have h0 : ("1.0.0." ++ ts).toList = "1.0.0.".toList ++ ts.toList := by
              simp [String.toList, String.data_append]
            rw [h0]
            rfl
          have h2 : splitDots ("1.0.0." ++ ts) = ["1", "0", "0", ts] := by
            unfold splitDots
            rw [h1]
            rw [show ('1' :: '.' :: '0' :: '.' :: '0' :: '.' :: ts.toList)
                = ['1'] ++ ((([['0'], ['0'], ts.toList]).map (fun p => '.' :: p)).flatten)
              from by simp]
            rw [splitDotsAux_parts _ _ (by decide) ?nodots]
            · simp [string_mk_toList]
            case nodots =>
              intro p hp c hc
              rcases List.mem_cons.mp hp with hp | hp
              · rw [hp] at hc
                rcases List.mem_singleton.mp hc with rfl
                decide
              rcases List.mem_cons.mp hp with hp | hp
              · rw [hp] at hc
                rcases List.mem_singleton.mp hc with rfl
                decide
              · rcases List.mem_cons.mp hp with hp | hp
                · rw [hp] at hc
                  exact isDigit_ne_dot c (hdig c hc)
                · simp at hp
          unfold hasFourIntComponents
          rw [h2]
          simp only [List.all_eq_true, Bool.and_eq_true, beq_iff_eq]
          refine ⟨rfl, ?_⟩
          intro p hp
          rcases List.mem_cons.mp hp with hp | hp
          · rw [hp]; decide
          rcases List.mem_cons.mp hp with hp | hp
          · rw [hp]; decide
          rcases List.mem_cons.mp hp with hp | hp
          · rw [hp]; decide
          rcases List.mem_cons.mp hp with hp | hp
          · rw [hp]
            exact pyInt?_digits_isSome ts ⟨hne, hdig⟩
          · simp at hp
  | some version =>
      show hasFourIntComponents (normalizeVersion time version) = true
      have hks : ∃ k, 1 ≤ k ∧ k ≤ 4 ∧ searchDotted k f.toList = some version := by
        rcases orElse_some _ _ _ hs with h | h
        · exact ⟨4, by omega, by omega, h⟩
        rcases orElse_some _ _ _ h with h | h
        · exact ⟨3, by omega, by omega, h⟩
        rcases orElse_some _ _ _ h with h | h
        · exact ⟨2, by omega, by omega, h⟩
        · exact ⟨1, by omega, by omega, h⟩
      obtain ⟨k, hk1, hk4, hsd⟩ := hks
      obtain ⟨hlen, hgood⟩ := searchDotted_splitDots k f.toList version hsd
      exact normalize_good time version k hk4 hk1 hlen hgood


theorem dictSet_keys_mem {α : Type} : ∀ (l : List (String × α)) (k : String) (v : α)
    (x : String), x ∈ (dictSet l k v).map Prod.fst → x ∈ l.map Prod.fst ∨ x = k := by
  intro l k v
  induction l with
  | nil =>
      intro x hx
      simp [dictSet] at hx
      exact Or.inr hx
  | cons p rest ih =>
      intro x hx
      unfold dictSet at hx
      by_cases hk : p.1 == k
      · rw [if_pos hk] at hx
        simp at hx
        rcases hx with hx | hx
        · exact Or.inr hx
        · exact Or.inl (by simp [hx])
      · rw [if_neg hk] at hx
        simp at hx
        rcases hx with hx | hx
        · exact Or.inl (by simp [hx])
        · rcases ih x (by simpa using hx) with h | h
          · exact Or.inl (by simp; right; simpa using h)
          · exact Or.inr h

theorem dictSet_nodup {α : Type} : ∀ (l : List (String × α)) (k : String) (v : α),
    (l.map Prod.fst).Nodup → ((dictSet l k v).map Prod.fst).Nodup := by
  intro l k v
  induction l with
  | nil => intro _; simp [dictSet]
  | cons p rest ih =>
      intro h
      simp only [List.map_cons, List.nodup_cons] at h
      obtain ⟨hnotin, hnd⟩ := h
      unfold dictSet
      by_cases hk : p.1 == k
      · rw [if_pos hk]
        simp only [List.map_cons, List.nodup_cons]
        refine ⟨?_, hnd⟩
        have : p.1 = k := by simpa using hk
        rw [← this]
        exact hnotin
      · rw [if_neg hk]
        simp only [List.map_cons, List.nodup_cons]
        refine ⟨?_, ih hnd⟩
        intro hcon
        rcases dictSet_keys_mem rest k v p.1 hcon with h | h
        · exact hnotin h
        · exact hk (by simpa using h)

theorem dictSet_all {α : Type} (P : String × α → Prop) :
    ∀ (l : List (String × α)) (k : String) (v : α),
    (∀ p ∈ l, P p) → P (k, v) → ∀ p ∈ dictSet l k v, P p := by
  intro l k v
  induction l with
  | nil => intro _ hkv p hp; simp [dictSet] at hp; rw [hp]; exact hkv
  | cons q rest ih =>
      intro hl hkv p hp
      unfold dictSet at hp
      by_cases hk : q.1 == k
      · rw [if_pos hk] at hp
        rcases List.mem_cons.mp hp with h | h
        · rw [h]; exact hkv
        · exact hl p (List.mem_cons_of_mem q h)
      · rw [if_neg hk] at hp
        rcases List.mem_cons.mp hp with h | h
        · rw [h]; exact hl q (List.mem_cons_self q rest)
        · exact ih (fun x hx => hl x (List.mem_cons_of_mem q hx)) hkv p h

theorem dictErase_keys_sub {α : Type} : ∀ (l : List (String × α)) (k : String) (x : String),
    x ∈ (dictErase l k).map Prod.fst → x ∈ l.map Prod.fst := by
  intro l k
  induction l with
  | nil => intro x hx; simp [dictErase] at hx
  | cons p rest ih =>
      intro x hx
      unfold dictErase at hx
      by_cases hk : p.1 == k
      · rw [if_pos hk] at hx
        simp
        right
        simpa using hx
      · rw [if_neg hk] at hx
        simp at hx ⊢
        rcases hx with h | h
        · exact Or.inl h
        · exact Or.inr (by simpa using ih x (by simpa using h))

theorem dictErase_nodup {α : Type} : ∀ (l : List (String × α)) (k : String),
    (l.map Prod.fst).Nodup → ((dictErase l k).map Prod.fst).Nodup := by
  intro l k
  induction l with
  | nil => intro _; simp [dictErase]
  | cons p rest ih =>
      intro h
      simp only [List.map_cons, List.nodup_cons] at h
      obtain ⟨hnotin, hnd⟩ := h
      unfold dictErase
      by_cases hk : p.1 == k
      · rw [if_pos hk]; exact hnd
      · rw [if_neg hk]
        simp only [List.map_cons, List.nodup_cons]
        exact ⟨fun hcon => hnotin (dictErase_keys_sub rest k p.1 hcon), ih hnd⟩

theorem dictErase_mem {α : Type} : ∀ (l : List (String × α)) (k : String) (p : String × α),
    p ∈ dictErase l k → p ∈ l := by
  intro l k
  induction l with
  | nil => intro p hp; simp [dictErase] at hp
  | cons q rest ih =>
      intro p hp
      unfold dictErase at hp
      by_cases hk : q.1 == k
      · rw [if_pos hk] at hp
        exact List.mem_cons_of_mem q hp
      · rw [if_neg hk] at hp
        rcases List.mem_cons.mp hp with h | h
        · rw [h]; exact List.mem_cons_self q rest
        · exact List.mem_cons_of_mem q (ih p h)

theorem dictGet_mem {α : Type} (l : List (String × α)) (k : String) (v : α)
    (h : dictGet l k = some v) : (k, v) ∈ l := by
  unfold dictGet at h
  cases hf : l.find? (fun p => p.1 == k) with
  | none => rw [hf] at h; simp at h
  | some p =>
      rw [hf] at h
      simp at h
      have hmem := List.mem_of_find?_eq_some hf
      have hkey := List.find?_some hf
      have hk : p.1 = k := by simpa using hkey
      have : p = (k, v) := by
        cases p
        simp at hk h ⊢
        exact ⟨hk, h⟩
      rw [← this]
      exact hmem


theorem catalogKeysOk_dictSet (l : List (String × FirmwareInfo)) (k : String)
    (fw : FirmwareInfo) (hok : CatalogKeysOk l) (hid : fw.id = k) :
    CatalogKeysOk (dictSet l k fw) :=
  ⟨dictSet_nodup l k fw hok.1,
    dictSet_all (fun p => p.2.id = p.1) l k fw hok.2 hid⟩

theorem addFirmware_keysOk (chk : List Nat → String) (time : Nat) (nowIso : String)
    (st : CatalogState) (fileName orig : String) (version : Option String)
    (td : String) (md : List (String × String))
    (hok : CatalogKeysOk st.firmwares) :
    ∀ r ∈ addFirmware chk time nowIso st fileName orig version td md,
      CatalogKeysOk r.2.firmwares := by
  intro r hr
  unfold addFirmware at hr
  cases hfile : dictGet st.files fileName with
  | none => rw [hfile] at hr; simp at hr
  | some content =>
      rw [hfile] at hr
      simp only [Option.mem_def, Option.some_inj] at hr
      rw [← hr]
      exact catalogKeysOk_dictSet st.firmwares _ _ hok rfl

theorem addFirmware_inferred_version (chk : List Nat → String) (time : Nat) (nowIso : String)
    (st : CatalogState) (fileName orig : String)
    (td : String) (md : List (String × String)) :
    ∀ r ∈ addFirmware chk time nowIso st fileName orig none td md,
      hasFourIntComponents r.1.version = true := by
  intro r hr
  unfold addFirmware at hr
  cases hfile : dictGet st.files fileName with
  | none => rw [hfile] at hr; simp at hr
  | some content =>
      rw [hfile] at hr
      simp only [Option.mem_def, Option.some_inj] at hr
      rw [← hr]
      exact extract_version_four_components time orig

theorem removeFirmware_keysOk (st : CatalogState) (fid : String)
    (hok : CatalogKeysOk st.firmwares) :
    CatalogKeysOk (removeFirmware st fid).2.firmwares := by
  unfold removeFirmware
  cases hfw : dictGet st.firmwares fid with
  | none => exact hok
  | some fw =>
      refine ⟨dictErase_nodup st.firmwares fid hok.1, ?_⟩
      intro p hp
      exact hok.2 p (dictErase_mem st.firmwares fid p hp)

theorem scanFold_inv (chk : List Nat → String) (time : Nat) (ctimeIso : String → String)
    (scanIso : String) :
    ∀ (files : List (String × List Nat)) (acc : List (String × FirmwareInfo)),
    CatalogKeysOk acc → (∀ p ∈ acc, hasFourIntComponents p.2.version = true) →
    CatalogKeysOk (files.foldl (fun acc p =>
        if endsBin p.1 then
          let fw := createFirmwareFromFile chk time ctimeIso scanIso p.1 p.2
          dictSet acc fw.id fw
        else acc) acc) ∧
    ∀ q ∈ files.foldl (fun acc p =>
        if endsBin p.1 then
          let fw := createFirmwareFromFile chk time ctimeIso scanIso p.1 p.2
          dictSet acc fw.id fw
        else acc) acc, hasFourIntComponents q.2.version = true := by
  intro files
  induction files with
  | nil => intro acc h1 h2; exact ⟨h1, h2⟩
  | cons f rest ih =>
      intro acc h1 h2
      simp only [List.foldl_cons]
      by_cases hb : endsBin f.1
      · rw [if_pos hb]
        apply ih
        · exact catalogKeysOk_dictSet acc _ _ h1 rfl
        · intro q hq
          refine dictSet_all (fun p => hasFourIntComponents p.2.version = true) acc _ _ h2 ?_ q hq
          exact extract_version_four_components time f.1
      · rw [if_neg hb]
        exact ih acc h1 h2

theorem scanExistingFiles_keysOk (chk : List Nat → String) (time : Nat)
    (ctimeIso : String → String) (scanIso : String) (files : List (String × List Nat)) :
    CatalogKeysOk (scanExistingFiles chk time ctimeIso scanIso files) ∧
    ∀ p ∈ scanExistingFiles chk time ctimeIso scanIso files,
      hasFourIntComponents p.2.version = true := by
  unfold scanExistingFiles
  exact scanFold_inv chk time ctimeIso scanIso files [] ⟨by simp, by simp⟩ (by simp)

theorem encryptFirmwareOp_keysOk
    (cipher : List Nat → Option (List Nat × List (String × String)))
    (writeF : String → List Nat → WriteOutcome)
    (chk : List Nat → String)
    (st : CatalogState) (fid alg : String) (pw : Option String) (key : Option (List Nat))
    (hok : CatalogKeysOk st.firmwares) :
    CatalogKeysOk (encryptFirmwareOp cipher writeF chk st fid alg pw key).2.firmwares := by
  unfold encryptFirmwareOp
  repeat' split
  all_goals try exact hok
  all_goals
    exact catalogKeysOk_dictSet st.firmwares fid _ hok
      (by
        have hm := dictGet_mem st.firmwares fid _ (by assumption)
        exact hok.2 _ hm)


/-- **C8** (amended). Across startup scan, add, remove and
encrypt-in-place, every record keeps a unique id equal to its catalog
key; records synthesized by the startup scan, and records produced by
`add` when no explicit version is passed, have versions of exactly 4
integer components.  An explicitly passed version is stored verbatim and
may have any shape (see the counterexample). -/
theorem catalog_invariants :
    (∀ (chk : List Nat → String) (time : Nat) (nowIso : String) (st : CatalogState)
        (fileName orig : String) (version : Option String) (td : String)
        (md : List (String × String)),
      CatalogKeysOk st.firmwares →
      ∀ r ∈ addFirmware chk time nowIso st fileName orig version td md,
        CatalogKeysOk r.2.firmwares) ∧
    (∀ (st : CatalogState) (fid : String), CatalogKeysOk st.firmwares →
      CatalogKeysOk (removeFirmware st fid).2.firmwares) ∧
    (∀ (cipher : List Nat → Option (List Nat × List (String × String)))
        (writeF : String → List Nat → WriteOutcome)
        (chk : List Nat → String) (st : CatalogState) (fid alg : String)
        (pw : Option String) (key : Option (List Nat)),
      CatalogKeysOk st.firmwares →
      CatalogKeysOk (encryptFirmwareOp cipher writeF chk st fid alg pw key).2.firmwares) ∧
    (∀ (chk : List Nat → String) (time : Nat) (ctimeIso : String → String)
        (scanIso : String) (files : List (String × List Nat)),
      CatalogKeysOk (scanExistingFiles chk time ctimeIso scanIso files) ∧
      ∀ p ∈ scanExistingFiles chk time ctimeIso scanIso files,
        hasFourIntComponents p.2.version = true) ∧
    (∀ (chk : List Nat → String) (time : Nat) (nowIso : String) (st : CatalogState)
        (fileName orig : String) (td : String) (md : List (String × String)),
      ∀ r ∈ addFirmware chk time nowIso st fileName orig none td md,
        hasFourIntComponents r.1.version = true) :=
  ⟨fun chk time nowIso st fileName orig version td md hok =>
      addFirmware_keysOk chk time nowIso st fileName orig version td md hok,
    fun st fid hok => removeFirmware_keysOk st fid hok,
    fun cipher writeF chk st fid alg pw key hok =>
      encryptFirmwareOp_keysOk cipher writeF chk st fid alg pw key hok,
    fun chk time ctimeIso scanIso files =>
      scanExistingFiles_keysOk chk time ctimeIso scanIso files,
    fun chk time nowIso st fileName orig td md =>
      addFirmware_inferred_version chk time nowIso st fileName orig td md⟩

/-- Witness for **C8**: the concrete catalog `stThree` satisfies the id
invariant, removal preserves it, and an `add` without explicit version
on a concrete upload yields a 4-component version. -/
theorem catalog_invariants_witness :
    CatalogKeysOk stThree.firmwares ∧
    CatalogKeysOk (removeFirmware stThree "r1").2.firmwares ∧
    ∀ r ∈ addFirmware constChk 5 "t" stUpload "up.bin" "motor_v1.2.3.4.bin" none "d" [],
      hasFourIntComponents r.1.version = true :=
  ⟨⟨by decide, by decide⟩,
    catalog_invariants.2.1 stThree "r1" ⟨by decide, by decide⟩,
    catalog_invariants.2.2.2.2 constChk 5 "t" stUpload "up.bin" "motor_v1.2.3.4.bin" "d" []⟩

/-- Counterexample to **C8** as stated: `add` with the explicitly passed
version `"1.2"` stores it verbatim, so the resulting record's version
does not have 4 integer components. -/
theorem add_explicit_version_unnormalized :
    ((addFirmware constChk 0 "t0" stUpload "up.bin" "up.bin" (some "1.2")
        "STM32F103ZET6" []).map (fun r => r.1.version)) = some "1.2" ∧
    hasFourIntComponents "1.2" = false :=
  ⟨by decide, by decide⟩


/-- **C9.** Version inference from filenames follows the pattern
priority 4-part dotted > 3-part > 2-part > 1-part (so adding
`motor_ctrl_v1.2.3.45.bin` with no explicit version infers `1.2.3.45`);
when no dotted/numeric pattern matches, the result is `"1.0.0.<t>"` for
a leftmost 8-digit token `t` and `"1.0.0.0"` otherwise. -/
theorem version_inference_priority :
    (∀ (chk : List Nat → String) (time : Nat) (nowIso : String) (st : CatalogState)
        (fileName td : String) (md : List (String × String)),
      ∀ r ∈ addFirmware chk time nowIso st fileName "motor_ctrl_v1.2.3.45.bin" none td md,
        r.1.version = "1.2.3.45") ∧
    (∀ (time : Nat) (f g : String), searchDotted 4 f.toList = some g →
      extractVersionFromFilename time f = normalizeVersion time g) ∧
    (∀ (time : Nat) (f g : String), searchDotted 4 f.toList = none →
      searchDotted 3 f.toList = some g →
      extractVersionFromFilename time f = normalizeVersion time g) ∧
    (∀ (time : Nat) (f g : String), searchDotted 4 f.toList = none →
      searchDotted 3 f.toList = none → searchDotted 2 f.toList = some g →
      extractVersionFromFilename time f = normalizeVersion time g) ∧
    (∀ (time : Nat) (f g : String), searchDotted 4 f.toList = none →
      searchDotted 3 f.toList = none → searchDotted 2 f.toList = none →
      searchDotted 1 f.toList = some g →
      extractVersionFromFilename time f = normalizeVersion time g) ∧
    (∀ (time : Nat) (f : String), searchDotted 4 f.toList = none →
      searchDotted 3 f.toList = none → searchDotted 2 f.toList = none →
      searchDotted 1 f.toList = none →
      extractVersionFromFilename time f =
        (match searchEightDigits f.toList with
          | some ts => "1.0.0." ++ ts
          | none => "1.0.0.0")) := by
  refine ⟨?_, ?_, ?_, ?_, ?_, ?_⟩
  · intro chk time nowIso st fileName td md r hr
    unfold addFirmware at hr
    cases hfile : dictGet st.files fileName with
    | none => rw [hfile] at hr; simp at hr
    | some content =>
        rw [hfile] at hr
        simp only [Option.mem_def, Option.some_inj] at hr
        rw [← hr]
        rfl
  · intro time f g h4
    have h4' : searchDotted 4 f.data = some g := h4
    simp [extractVersionFromFilename, h4']
  · intro time f g h4 h3
    have h4' : searchDotted 4 f.data = none := h4
    have h3' : searchDotted 3 f.data = some g := h3
    simp [extractVersionFromFilename, h4', h3']
  · intro time f g h4 h3 h2
    have h4' : searchDotted 4 f.data = none := h4
    have h3' : searchDotted 3 f.data = none := h3
    have h2' : searchDotted 2 f.data = some g := h2
    simp [extractVersionFromFilename, h4', h3', h2']
  · intro time f g h4 h3 h2 h1
    have h4' : searchDotted 4 f.data = none := h4
    have h3' : searchDotted 3 f.data = none := h3
    have h2' : searchDotted 2 f.data = none := h2
    have h1' : searchDotted 1 f.data = some g := h1
    simp [extractVersionFromFilename, h4', h3', h2', h1']
  · intro time f h4 h3 h2 h1
    have h4' : searchDotted 4 f.data = none := h4
    have h3' : searchDotted 3 f.data = none := h3
    have h2' : searchDotted 2 f.data = none := h2
    have h1' : searchDotted 1 f.data = none := h1
    simp [extractVersionFromFilename, h4', h3', h2', h1']

/-- Witness for **C9** at concrete filenames. -/
theorem version_inference_priority_witness :
    (∀ r ∈ addFirmware constChk 9 "t" stUpload "up.bin" "motor_ctrl_v1.2.3.45.bin" none "d" [],
      r.1.version = "1.2.3.45") ∧
    extractVersionFromFilename 9 "a_v9.8.7.6.bin" = normalizeVersion 9 "9.8.7.6" ∧
    extractVersionFromFilename 9 "firmware.bin" =
      (match searchEightDigits "firmware.bin".toList with
        | some ts => "1.0.0." ++ ts
        | none => "1.0.0.0") :=
  ⟨version_inference_priority.1 constChk 9 "t" stUpload "up.bin" "d" [],
   version_inference_priority.2.1 9 "a_v9.8.7.6.bin" "9.8.7.6" (by decide),
   version_inference_priority.2.2.2.2.2 9 "firmware.bin"
     (by decide) (by decide) (by decide) (by decide)⟩


end OTA
